import Mathlib

/-!
Shallow embedding of the UserSpaceQOS qdisc composition engine.

Conventions of the embedding:
* The monotonic clock is modelled as a natural number of milliseconds; every
  operation that reads the clock in the source receives the current time
  explicitly as a parameter named now.
* Rust saturating_duration_since is Nat truncated subtraction.
* HashMap is modelled as an association list with lookup, in-place replace
  and removal; map iteration order never influences the modelled results.
* enqueue returns the new state together with an Option carrying the Err
  payload (none models Ok, some c models Err(c)).
* peek and dequeue return the new state (they perform lazy expiry) together
  with the peeked or dequeued context.
-/

/-- The unit flowing through every qdisc, mirroring packet_context.rs. -/
structure PacketContext (T K : Type) where
  msg : T
  key : K
  pkt_len : Nat
  cost : Nat
  queue_num : Nat
  arrival_time : Nat
  frames : Nat
  is_pure_ack : Bool
  tcp_ack_num : Nat
  deriving DecidableEq, Repr

namespace AssocList

/-- Lookup in an association list modelling HashMap.get. -/
def lookupA {K V : Type} [DecidableEq K] : List (K × V) → K → Option V
  | [], _ => none
  | (k, v) :: rest, key => if k = key then some v else lookupA rest key

/-- Insert or replace, modelling HashMap.insert. -/
def insertA {K V : Type} [DecidableEq K] : List (K × V) → K → V → List (K × V)
  | [], key, value => [(key, value)]
  | (k, v) :: rest, key, value =>
    if k = key then (key, value) :: rest else (k, v) :: insertA rest key value

/-- Remove a key, modelling HashMap.remove. -/
def removeA {K V : Type} [DecidableEq K] : List (K × V) → K → List (K × V)
  | [], _ => []
  | (k, v) :: rest, key =>
    if k = key then rest else (k, v) :: removeA rest key

end AssocList

open AssocList

/-- Age test used by FifoQdisc and DrrQdisc:
now.saturating_duration_since(arrival_time) > max_latency. -/
def isStale {T K : Type} (max_latency now : Nat) (ctx : PacketContext T K) : Bool :=
  max_latency < now - ctx.arrival_time

-- ==========================================
-- FifoQdisc (fifo_qdisc.rs)
-- ==========================================

/-- Time-bounded drop-head FIFO, mirroring fifo_qdisc.rs. -/
structure FifoQdisc (T K : Type) where
  queue : List (PacketContext T K)
  max_latency : Nat
  hard_limit : Nat
  pending_expired : List (PacketContext T K)
  deriving DecidableEq, Repr

namespace FifoQdisc

/-- Constructor mirroring FifoQdisc.new. -/
def new (T K : Type) (max_latency_ms : Nat) (hard_limit : Nat) : FifoQdisc T K :=
  { queue := [], max_latency := max_latency_ms, hard_limit := hard_limit,
    pending_expired := [] }

/-- Enqueue, mirroring fifo_qdisc.rs lines 28-38: when the queue is at the
hard limit the head is popped and returned as the Err payload while the new
context is pushed at the tail. -/
def enqueue {T K : Type} (q : FifoQdisc T K) (ctx : PacketContext T K) :
    FifoQdisc T K × Option (PacketContext T K) :=
  if q.hard_limit ≤ q.queue.length then
    match q.queue with
    | old :: rest => ({ q with queue := rest ++ [ctx] }, some old)
    | [] => ({ q with queue := q.queue ++ [ctx] }, none)
  else
    ({ q with queue := q.queue ++ [ctx] }, none)

/-- The expiry sweep of peek: pop stale heads until a fresh head appears,
collecting the stale ones in order. -/
def sweep {T K : Type} (max_latency now : Nat) :
    List (PacketContext T K) → List (PacketContext T K) × List (PacketContext T K)
  | [] => ([], [])
  | ctx :: rest =>
    if isStale max_latency now ctx then
      let (q, e) := sweep max_latency now rest
      (q, ctx :: e)
    else
      (ctx :: rest, [])

/-- Peek, mirroring fifo_qdisc.rs lines 40-53: lazily expire stale heads
into pending_expired, then return the new head. -/
def peek {T K : Type} (q : FifoQdisc T K) (now : Nat) :
    FifoQdisc T K × Option (PacketContext T K) :=
  let s := sweep q.max_latency now q.queue
  ({ q with queue := s.1, pending_expired := q.pending_expired ++ s.2 },
   s.1.head?)

/-- Dequeue, mirroring fifo_qdisc.rs lines 55-59: peek to trigger expiry,
then pop the head. -/
def dequeue {T K : Type} (q : FifoQdisc T K) (now : Nat) :
    FifoQdisc T K × Option (PacketContext T K) :=
  let p := q.peek now
  match p.2 with
  | none => (p.1, none)
  | some _ => ({ p.1 with queue := p.1.queue.tail }, p.1.queue.head?)

/-- Collect the internally dropped contexts, mirroring lines 62-64. -/
def collect_dropped {T K : Type} (q : FifoQdisc T K) :
    FifoQdisc T K × List (PacketContext T K) :=
  ({ q with pending_expired := [] }, q.pending_expired)

/-- Number of contexts held inside the qdisc, counting the expiry buffer. -/
def residents {T K : Type} (q : FifoQdisc T K) : Nat :=
  q.queue.length + q.pending_expired.length

end FifoQdisc

-- Basic structural lemmas about the FIFO sweep.

theorem sweep_eq_span {T K : Type} (ml now : Nat) (l : List (PacketContext T K)) :
    FifoQdisc.sweep ml now l =
      (l.dropWhile (isStale ml now), l.takeWhile (isStale ml now)) := by
  induction l with
  | nil => rfl
  | cons c rest ih =>
    by_cases h : isStale ml now c = true
    · simp [FifoQdisc.sweep, h, ih, List.dropWhile, List.takeWhile]
    · simp [FifoQdisc.sweep, h, List.dropWhile, List.takeWhile]

theorem sweep_perm {T K : Type} (ml now : Nat) (l : List (PacketContext T K)) :
    ((FifoQdisc.sweep ml now l).2 ++ (FifoQdisc.sweep ml now l).1).Perm l := by
  rw [sweep_eq_span]
  rw [List.takeWhile_append_dropWhile]

theorem sweep_head_fresh {T K : Type} (ml now : Nat)
    (l : List (PacketContext T K)) (c : PacketContext T K)
    (h : (FifoQdisc.sweep ml now l).1.head? = some c) :
    isStale ml now c = false := by
  rw [sweep_eq_span] at h
  have := List.head?_dropWhile_not (p := isStale ml now) (l := l)
  rw [h] at this
  simpa using this

theorem sweep_of_fresh_head {T K : Type} (ml now : Nat)
    (l : List (PacketContext T K)) (c : PacketContext T K)
    (hh : l.head? = some c) (hf : isStale ml now c = false) :
    FifoQdisc.sweep ml now l = (l, []) := by
  cases l with
  | nil => cases hh
  | cons a rest =>
    have : a = c := by simpa using hh
    subst this
    simp [FifoQdisc.sweep, hf]

namespace FifoQdisc

theorem peek_snd_eq {T K : Type} (q : FifoQdisc T K) (now : Nat) :
    (q.peek now).2 = (q.peek now).1.queue.head? := rfl

/-- Peek on a queue whose head is fresh changes nothing. -/
theorem peek_of_fresh {T K : Type} (q : FifoQdisc T K) (now : Nat)
    (c : PacketContext T K) (hh : q.queue.head? = some c)
    (hf : isStale q.max_latency now c = false) :
    q.peek now = (q, some c) := by
  cases q with
  | mk qu ml hl pe =>
    simp only [peek, sweep_of_fresh_head ml now qu c hh hf]
    simp_all

/-- Peek on an empty queue changes nothing. -/
theorem peek_of_empty {T K : Type} (q : FifoQdisc T K) (now : Nat)
    (hh : q.queue = []) :
    q.peek now = (q, none) := by
  cases q with
  | mk qu ml hl pe =>
    simp only at hh
    subst hh
    simp [peek, sweep]

/-- The head returned by peek is always fresh. -/
theorem peek_fresh {T K : Type} (q : FifoQdisc T K) (now : Nat)
    (c : PacketContext T K) (h : (q.peek now).2 = some c) :
    isStale q.max_latency now c = false := by
  have : (sweep q.max_latency now q.queue).1.head? = some c := h
  exact sweep_head_fresh _ _ _ _ this

/-- A second peek with no intervening mutation returns the same answer and
leaves the state unchanged: the lazy-housekeeping idempotence of peek. -/
theorem peek_idem {T K : Type} (q : FifoQdisc T K) (now : Nat) :
    (q.peek now).1.peek now = ((q.peek now).1, (q.peek now).2) := by
  cases hp : (q.peek now).2 with
  | none =>
    have hq : (q.peek now).1.queue = [] := by
      rw [peek_snd_eq] at hp
      exact List.head?_eq_none_iff.mp hp
    rw [peek_of_empty _ _ hq]
  | some c =>
    have hh : (q.peek now).1.queue.head? = some c := by
      rw [peek_snd_eq] at hp; exact hp
    have hml : (q.peek now).1.max_latency = q.max_latency := rfl
    have hf : isStale (q.peek now).1.max_latency now c = false := by
      rw [hml]; exact peek_fresh q now c hp
    rw [peek_of_fresh _ _ c hh hf]

/-- Immediately after a peek that returned a context, dequeue pops exactly
that context. -/
theorem peek_then_dequeue {T K : Type} (q : FifoQdisc T K) (now : Nat)
    (c : PacketContext T K) (h : (q.peek now).2 = some c) :
    ((q.peek now).1.dequeue now).2 = some c := by
  have hi := peek_idem q now
  simp only [dequeue, hi, h]
  rw [peek_snd_eq] at h
  exact h

/-- Dequeue never returns a stale context. -/
theorem dequeue_fresh {T K : Type} (q : FifoQdisc T K) (now : Nat)
    (c : PacketContext T K) (h : (q.dequeue now).2 = some c) :
    isStale q.max_latency now c = false := by
  simp only [dequeue] at h
  cases hp : (q.peek now).2 with
  | none => simp [hp] at h
  | some d =>
    simp only [hp] at h
    have : (q.peek now).1.queue.head? = some c := h
    rw [peek_snd_eq] at hp
    rw [this] at hp
    cases hp
    exact peek_fresh q now c (by rw [peek_snd_eq]; exact this)

end FifoQdisc

-- ==========================================
-- Operation traces over a FifoQdisc, for the conservation law.
-- ==========================================

/-- One externally visible operation on a FIFO qdisc. -/
inductive FifoOp (T K : Type) where
  | enq (ctx : PacketContext T K)
  | deq (now : Nat)
  | peekOp (now : Nat)
  | collect
  deriving DecidableEq, Repr

/-- Running tally of a trace: the qdisc state, the number of enqueues that
returned Ok, and the contexts handed to the caller through each channel. -/
structure FifoTally (T K : Type) where
  q : FifoQdisc T K
  okEnq : Nat
  dequeued : List (PacketContext T K)
  surfaced : List (PacketContext T K)
  evicted : List (PacketContext T K)
  deriving DecidableEq, Repr

/-- One trace step: perform the operation and record its outcome. -/
def fifoStep {T K : Type} (t : FifoTally T K) : FifoOp T K → FifoTally T K
  | .enq ctx =>
    let r := t.q.enqueue ctx
    match r.2 with
    | none => { t with q := r.1, okEnq := t.okEnq + 1 }
    | some old => { t with q := r.1, evicted := t.evicted ++ [old] }
  | .deq now =>
    let r := t.q.dequeue now
    match r.2 with
    | none => { t with q := r.1 }
    | some c => { t with q := r.1, dequeued := t.dequeued ++ [c] }
  | .peekOp now => { t with q := (t.q.peek now).1 }
  | .collect =>
    let r := t.q.collect_dropped
    { t with q := r.1, surfaced := t.surfaced ++ r.2 }

/-- Run a whole trace from an empty qdisc. -/
def fifoRun {T K : Type} (max_latency_ms hard_limit : Nat)
    (ops : List (FifoOp T K)) : FifoTally T K :=
  ops.foldl fifoStep
    { q := FifoQdisc.new T K max_latency_ms hard_limit, okEnq := 0,
      dequeued := [], surfaced := [], evicted := [] }

/-- The count-ledger of a tally balances when consumed equals produced. -/
def fifoBalanced {T K : Type} (t : FifoTally T K) : Prop :=
  t.okEnq = t.dequeued.length + t.surfaced.length + t.q.residents

theorem length_sweep_parts {T K : Type} (ml now : Nat)
    (l : List (PacketContext T K)) :
    (FifoQdisc.sweep ml now l).1.length + (FifoQdisc.sweep ml now l).2.length
      = l.length := by
  have h := sweep_eq_span ml now l
  have h1 : (FifoQdisc.sweep ml now l).1 = l.dropWhile (isStale ml now) := by
    rw [h]
  have h2 : (FifoQdisc.sweep ml now l).2 = l.takeWhile (isStale ml now) := by
    rw [h]
  rw [h1, h2]
  have := congrArg List.length
    (List.takeWhile_append_dropWhile (p := isStale ml now) (l := l))
  simp only [List.length_append] at this
  omega

theorem residents_peek {T K : Type} (q : FifoQdisc T K) (now : Nat) :
    (q.peek now).1.residents = q.residents := by
  simp only [FifoQdisc.peek, FifoQdisc.residents, List.length_append]
  have := length_sweep_parts q.max_latency now q.queue
  omega

theorem fifoStep_balanced {T K : Type} (t : FifoTally T K) (op : FifoOp T K)
    (h : fifoBalanced t) : fifoBalanced (fifoStep t op) := by
  cases op with
  | enq ctx =>
    obtain ⟨⟨qu, ml, hlim, pe⟩, ok, dq, sf, ev⟩ := t
    simp only [fifoBalanced, FifoQdisc.residents] at h ⊢
    by_cases hl : hlim ≤ qu.length
    · cases qu with
      | nil =>
        simp only [List.length_nil] at hl h
        simp [fifoStep, FifoQdisc.enqueue, hl]
        omega
      | cons old rest =>
        simp only [List.length_cons] at hl h
        simp [fifoStep, FifoQdisc.enqueue, hl]
        omega
    · simp [fifoStep, FifoQdisc.enqueue, hl]
      omega
  | deq now =>
    have hres := residents_peek t.q now
    cases hp : (t.q.peek now).2 with
    | none =>
      simp only [fifoStep, FifoQdisc.dequeue, hp]
      simpa [fifoBalanced, hres] using h
    | some c =>
      have hne : (t.q.peek now).1.queue ≠ [] := by
        intro hemp
        rw [FifoQdisc.peek_snd_eq, hemp] at hp
        cases hp
      simp only [fifoStep, FifoQdisc.dequeue, hp]
      cases hq : (t.q.peek now).1.queue with
      | nil => exact absurd hq hne
      | cons a rest =>
        simp only [hq, List.head?, List.tail_cons]
        simp only [fifoBalanced, FifoQdisc.residents, List.length_append,
          List.length_cons, List.length_nil] at h ⊢
        simp only [FifoQdisc.residents, hq, List.length_cons] at hres
        omega
  | peekOp now =>
    have hres := residents_peek t.q now
    simp only [fifoStep]
    simpa [fifoBalanced, hres] using h
  | collect =>
    simp only [fifoStep, FifoQdisc.collect_dropped]
    simp only [fifoBalanced, FifoQdisc.residents, List.length_append,
      List.length_nil] at h ⊢
    omega

theorem fifoRun_balanced {T K : Type} (max_latency_ms hard_limit : Nat)
    (ops : List (FifoOp T K)) :
    fifoBalanced (fifoRun max_latency_ms hard_limit ops) := by
  suffices h : ∀ (t : FifoTally T K), fifoBalanced t →
      fifoBalanced (ops.foldl fifoStep t) by
    apply h
    simp [fifoBalanced, FifoQdisc.new, FifoQdisc.residents]
  induction ops with
  | nil => intro t ht; exact ht
  | cons op rest ih =>
    intro t ht
    exact ih _ (fifoStep_balanced t op ht)

/-- Helper to build concrete test contexts over T = Nat, K = Nat. -/
def mkCtx (id key pkt cost qn at_ : Nat) : PacketContext Nat Nat :=
  { msg := id, key := key, pkt_len := pkt, cost := cost, queue_num := qn,
    arrival_time := at_, frames := 1, is_pure_ack := false, tcp_ack_num := 0 }

/-- Helper to build concrete pure-ACK contexts over T = Nat, K = Nat. -/
def mkAckCtx (id key pkt ack : Nat) : PacketContext Nat Nat :=
  { msg := id, key := key, pkt_len := pkt, cost := pkt, queue_num := 0,
    arrival_time := 0, frames := 1, is_pure_ack := true, tcp_ack_num := ack }

/-- C1 counterexample: on a FifoQdisc with hard_limit 1, context A is
enqueued with Ok, then enqueuing B evicts A through the Err return of the
second enqueue: A is never dequeued, never surfaced by collect_dropped, and
no longer resident, so the claimed three-way terminal accounting of
successfully enqueued contexts fails on the head-drop path. -/
theorem C1_counterexample :
    (fifoRun 1000 1 [FifoOp.enq (mkCtx 0 0 100 100 0 0),
        FifoOp.enq (mkCtx 1 0 100 100 0 0)]).okEnq = 1 ∧
    ((FifoQdisc.new Nat Nat 1000 1).enqueue (mkCtx 0 0 100 100 0 0)).2
      = none ∧
    (fifoRun 1000 1 [FifoOp.enq (mkCtx 0 0 100 100 0 0),
        FifoOp.enq (mkCtx 1 0 100 100 0 0)]).dequeued = [] ∧
    (fifoRun 1000 1 [FifoOp.enq (mkCtx 0 0 100 100 0 0),
        FifoOp.enq (mkCtx 1 0 100 100 0 0)]).surfaced = [] ∧
    mkCtx 0 0 100 100 0 0 ∉
      (fifoRun 1000 1 [FifoOp.enq (mkCtx 0 0 100 100 0 0),
        FifoOp.enq (mkCtx 1 0 100 100 0 0)]).q.queue ∧
    (fifoRun 1000 1 [FifoOp.enq (mkCtx 0 0 100 100 0 0),
        FifoOp.enq (mkCtx 1 0 100 100 0 0)]).q.pending_expired = [] ∧
    (fifoRun 1000 1 [FifoOp.enq (mkCtx 0 0 100 100 0 0),
        FifoOp.enq (mkCtx 1 0 100 100 0 0)]).evicted
      = [mkCtx 0 0 100 100 0 0] := by
  decide

/-- C1 (amended): over every operation trace on a FifoQdisc the count of
enqueues that returned Ok equals the count of dequeued contexts plus the
count of contexts surfaced by collect_dropped plus the residents still held
(queue and expiry buffer); the per-context accounting additionally needs a
fourth terminal event, namely eviction through the Err return of a later
overflowing enqueue, which removes one accounted context while inserting
the new unaccounted one and therefore keeps the count identity balanced. -/
theorem C1_count_conservation {T K : Type} (max_latency_ms hard_limit : Nat)
    (ops : List (FifoOp T K)) :
    (fifoRun max_latency_ms hard_limit ops).okEnq =
      (fifoRun max_latency_ms hard_limit ops).dequeued.length
        + (fifoRun max_latency_ms hard_limit ops).surfaced.length
        + (fifoRun max_latency_ms hard_limit ops).q.residents :=
  fifoRun_balanced max_latency_ms hard_limit ops

-- ==========================================
-- DrrQdisc (drr_qdisc.rs)
-- ==========================================

/-- Per-flow bucket of the DRR qdisc, mirroring FlowBuffer. -/
structure FlowBuffer (T K : Type) where
  queue : List (PacketContext T K)
  deficit : Int
  quantum : Int
  group_id : Nat
  deriving DecidableEq, Repr

/-- Deficit-round-robin qdisc across flows, mirroring drr_qdisc.rs. -/
structure DrrQdisc (T K : Type) where
  flows : List (K × FlowBuffer T K)
  active_queue : List K
  group_flow_counts : List (Nat × Nat)
  max_latency : Nat
  hard_limit : Nat
  pending_expired : List (PacketContext T K)
  quantum : Int
  deriving DecidableEq, Repr

/-- Increment of the group flow count, mirroring entry(gid).or_insert(0) += 1. -/
def bumpGroup (m : List (Nat × Nat)) (gid : Nat) : List (Nat × Nat) :=
  match lookupA m gid with
  | some c => insertA m gid (c + 1)
  | none => insertA m gid 1

/-- Saturating decrement of the group flow count. -/
def decGroup (m : List (Nat × Nat)) (gid : Nat) : List (Nat × Nat) :=
  match lookupA m gid with
  | some c => if 0 < c then insertA m gid (c - 1) else m
  | none => m

namespace DrrQdisc

/-- Constructor mirroring DrrQdisc.new. -/
def new (T K : Type) (max_latency_ms hard_limit : Nat) (quantum : Int) :
    DrrQdisc T K :=
  { flows := [], active_queue := [], group_flow_counts := [],
    max_latency := max_latency_ms, hard_limit := hard_limit,
    pending_expired := [], quantum := quantum }

/-- Enqueue, mirroring drr_qdisc.rs lines 122-149: an existing flow at the
hard limit head-drops its own FIFO and returns the evicted context as Err;
a new flow is created with deficit = quantum and pushed at the front of the
active ring. -/
def enqueue {T K : Type} [DecidableEq K] (q : DrrQdisc T K)
    (ctx : PacketContext T K) : DrrQdisc T K × Option (PacketContext T K) :=
  let key := ctx.key
  let group_id := ctx.queue_num
  match lookupA q.flows key with
  | some flow0 =>
    let flow := { flow0 with quantum := q.quantum }
    if q.hard_limit ≤ flow.queue.length then
      match flow.queue with
      | drop_ctx :: rest =>
        let newFlow := { flow with queue := rest ++ [ctx] }
        ({ q with flows := insertA q.flows key newFlow }, some drop_ctx)
      | [] =>
        let newFlow := { flow with queue := flow.queue ++ [ctx] }
        ({ q with flows := insertA q.flows key newFlow }, none)
    else
      let newFlow := { flow with queue := flow.queue ++ [ctx] }
      ({ q with flows := insertA q.flows key newFlow }, none)
  | none =>
    let flow : FlowBuffer T K :=
      { queue := [ctx], deficit := q.quantum, quantum := q.quantum,
        group_id := group_id }
    ({ q with
        flows := insertA q.flows key flow,
        active_queue := key :: q.active_queue,
        group_flow_counts := bumpGroup q.group_flow_counts group_id }, none)

/-- The scheduling loop of prepare_next_ready_flow (drr_qdisc.rs lines
59-115), written with explicit fuel: the result pairs the new state with
some b when the Rust loop exits returning b, and none when the fuel runs
out before the loop exits. -/
def prepareLoop {T K : Type} [DecidableEq K] :
    Nat → DrrQdisc T K → Nat → DrrQdisc T K × Option Bool
  | 0, q, _ => (q, none)
  | fuel + 1, q, now =>
    match q.active_queue with
    | [] => (q, some false)
    | key :: restActive =>
      let q1 := { q with active_queue := restActive }
      match lookupA q1.flows key with
      | none => prepareLoop fuel q1 now
      | some flow =>
        let s := FifoQdisc.sweep q1.max_latency now flow.queue
        match s.1.head? with
        | some ctx =>
          if flow.deficit < (ctx.pkt_len : Int) then
            let newFlow := { flow with
                             queue := s.1,
                             deficit := flow.deficit + flow.quantum }
            let q2 := { q1 with
                        flows := insertA q1.flows key newFlow,
                        pending_expired := q1.pending_expired ++ s.2,
                        active_queue := restActive ++ [key] }
            prepareLoop fuel q2 now
          else
            let newFlow := { flow with queue := s.1 }
            ({ q1 with
                flows := insertA q1.flows key newFlow,
                pending_expired := q1.pending_expired ++ s.2,
                active_queue := key :: restActive }, some true)
        | none =>
          let q2 := { q1 with
                      flows := removeA q1.flows key,
                      group_flow_counts :=
                        decGroup q1.group_flow_counts flow.group_id,
                      pending_expired := q1.pending_expired ++ s.2 }
          prepareLoop fuel q2 now

/-- Dequeue, mirroring drr_qdisc.rs lines 159-190, with explicit fuel for
the preparation loop. -/
def dequeue {T K : Type} [DecidableEq K] (fuel : Nat) (q : DrrQdisc T K)
    (now : Nat) : DrrQdisc T K × Option (PacketContext T K) :=
  match prepareLoop fuel q now with
  | (q1, some true) =>
    match q1.active_queue with
    | [] => (q1, none)
    | key :: restActive =>
      let q2 := { q1 with active_queue := restActive }
      match lookupA q2.flows key with
      | none => (q2, none)
      | some flow =>
        match flow.queue with
        | [] => (q2, none)
        | ctx :: restQ =>
          let flow1 : FlowBuffer T K :=
            { flow with
              queue := restQ,
              deficit := flow.deficit - (ctx.pkt_len : Int) }
          if restQ.isEmpty then
            ({ q2 with
                flows := removeA q2.flows key,
                group_flow_counts :=
                  decGroup q2.group_flow_counts flow1.group_id }, some ctx)
          else
            ({ q2 with
                flows := insertA q2.flows key flow1,
                active_queue := key :: restActive }, some ctx)
  | (q1, _) => (q1, none)

/-- Peek, mirroring drr_qdisc.rs lines 151-157. -/
def peek {T K : Type} [DecidableEq K] (fuel : Nat) (q : DrrQdisc T K)
    (now : Nat) : DrrQdisc T K × Option (PacketContext T K) :=
  match prepareLoop fuel q now with
  | (q1, some true) =>
    match q1.active_queue with
    | [] => (q1, none)
    | key :: _ =>
      (q1, match lookupA q1.flows key with
           | some flow => flow.queue.head?
           | none => none)
  | (q1, _) => (q1, none)

/-- Collect the internally dropped contexts, mirroring lines 193-195. -/
def collect_dropped {T K : Type} (q : DrrQdisc T K) :
    DrrQdisc T K × List (PacketContext T K) :=
  ({ q with pending_expired := [] }, q.pending_expired)

end DrrQdisc

theorem lookupA_insertA_self {K V : Type} [DecidableEq K]
    (m : List (K × V)) (k : K) (v : V) :
    lookupA (insertA m k v) k = some v := by
  induction m with
  | nil => simp [insertA, lookupA]
  | cons kv rest ih =>
    by_cases h : kv.1 = k
    · simp [insertA, lookupA, h]
    · simp [insertA, lookupA, h, ih]

/-- C2 counterexample: on a FifoQdisc holding A with hard_limit 1, enqueue
of B returns Err carrying A, which is not the context passed in, and the
queued contents change from holding A to holding B. -/
theorem C2_counterexample :
    ((((FifoQdisc.new Nat Nat 1000 1).enqueue (mkCtx 0 0 100 100 0 0)).1.enqueue
        (mkCtx 1 0 100 100 0 0)).2 = some (mkCtx 0 0 100 100 0 0)) ∧
    mkCtx 0 0 100 100 0 0 ≠ mkCtx 1 0 100 100 0 0 ∧
    ((((FifoQdisc.new Nat Nat 1000 1).enqueue (mkCtx 0 0 100 100 0 0)).1.enqueue
        (mkCtx 1 0 100 100 0 0)).1.queue = [mkCtx 1 0 100 100 0 0]) ∧
    (((FifoQdisc.new Nat Nat 1000 1).enqueue (mkCtx 0 0 100 100 0 0)).1.queue
      = [mkCtx 0 0 100 100 0 0]) := by
  decide

/-- C2 (amended): whenever enqueue returns Err(c) on a FifoQdisc or a
DrrQdisc, the returned context c is the evicted former head of the relevant
FIFO, not the context passed in, and the passed context has been appended
at the tail of that FIFO; in particular c itself is no longer inserted. -/
theorem C2_enqueue_err_evicts_head {T K : Type} [DecidableEq K] :
    (∀ (q : FifoQdisc T K) (ctx c : PacketContext T K),
      (q.enqueue ctx).2 = some c →
      ∃ t, q.queue = c :: t ∧ (q.enqueue ctx).1.queue = t ++ [ctx]
        ∧ (q.enqueue ctx).1.pending_expired = q.pending_expired)
  ∧ (∀ (q : DrrQdisc T K) (ctx c : PacketContext T K),
      (q.enqueue ctx).2 = some c →
      ∃ flow t, lookupA q.flows ctx.key = some flow ∧ flow.queue = c :: t
        ∧ ∃ flow2, lookupA (q.enqueue ctx).1.flows ctx.key = some flow2
          ∧ flow2.queue = t ++ [ctx]) := by
  constructor
  · intro q ctx c h
    unfold FifoQdisc.enqueue at h ⊢
    by_cases hl : q.hard_limit ≤ q.queue.length
    · cases hq : q.queue with
      | nil =>
        rw [hq] at hl
        simp only [List.length_nil] at hl
        simp [hl, hq] at h
      | cons a rest =>
        rw [hq] at hl
        simp only [List.length_cons] at hl
        simp only [hq, List.length_cons, hl, if_true] at h ⊢
        cases h
        refine ⟨rest, ?_, ?_, ?_⟩ <;> simp [hq]
    · simp [hl] at h
  · intro q ctx c h
    unfold DrrQdisc.enqueue at h ⊢
    cases hf : lookupA q.flows ctx.key with
    | none => simp [hf] at h
    | some flow0 =>
      simp only [hf] at h ⊢
      by_cases hl : q.hard_limit ≤ flow0.queue.length
      · cases hq : flow0.queue with
        | nil =>
          simp only [hq, List.length_nil] at hl
          simp [hq, hl] at h
        | cons a rest =>
          simp only [hq, List.length_cons] at hl
          simp only [hq, List.length_cons, hl, if_true] at h ⊢
          cases h
          refine ⟨flow0, rest, rfl, hq, ?_⟩
          exact ⟨_, lookupA_insertA_self _ _ _, rfl⟩
      · simp only [hl, if_false] at h
        cases h

/-- Witness for C2: the amended statement applied to a concrete one-element
FIFO at its hard limit, whose enqueue evicts the stored head. -/
theorem C2_enqueue_err_evicts_head_witness :
    ∃ t, ((FifoQdisc.new Nat Nat 1000 1).enqueue (mkCtx 0 0 100 100 0 0)).1.queue
        = mkCtx 0 0 100 100 0 0 :: t
      ∧ ((((FifoQdisc.new Nat Nat 1000 1).enqueue (mkCtx 0 0 100 100 0 0)).1.enqueue
          (mkCtx 1 0 100 100 0 0)).1.queue = t ++ [mkCtx 1 0 100 100 0 0])
      ∧ ((((FifoQdisc.new Nat Nat 1000 1).enqueue (mkCtx 0 0 100 100 0 0)).1.enqueue
          (mkCtx 1 0 100 100 0 0)).1.pending_expired
        = ((FifoQdisc.new Nat Nat 1000 1).enqueue (mkCtx 0 0 100 100 0 0)).1.pending_expired) :=
  C2_enqueue_err_evicts_head.1
    ((FifoQdisc.new Nat Nat 1000 1).enqueue (mkCtx 0 0 100 100 0 0)).1
    (mkCtx 1 0 100 100 0 0) (mkCtx 0 0 100 100 0 0) (by decide)

-- ==========================================
-- TcpAckFilterQdisc (tcp_ack_filter_qdisc.rs)
-- ==========================================

/-- Newness test of tcp_ack_filter_qdisc.rs: b is newer than a iff the u32
wrapping difference b - a, reinterpreted as a signed 32-bit integer, is
strictly positive, i.e. the wrapped difference lies in [1, 2^31 - 1]. -/
def ackNewer (b a : Nat) : Bool :=
  let d := (b % 2 ^ 32 + (2 ^ 32 - a % 2 ^ 32)) % 2 ^ 32
  0 < d && d < 2 ^ 31

/-- ACK-sequence dedup wrapper, mirroring tcp_ack_filter_qdisc.rs. The
boxed inner qdisc is instantiated with the FifoQdisc model; the entries of
highest_acks pair the highest ack number with the last_seen timestamp. -/
structure TcpAckFilterQdisc (T K : Type) where
  inner : FifoQdisc T K
  highest_acks : List (K × (Nat × Nat))
  dropped : List (PacketContext T K)
  packet_counter : Nat
  deriving DecidableEq, Repr

namespace TcpAckFilterQdisc

/-- Constructor mirroring TcpAckFilterQdisc.new. -/
def new {T K : Type} (inner : FifoQdisc T K) : TcpAckFilterQdisc T K :=
  { inner := inner, highest_acks := [], dropped := [], packet_counter := 0 }

/-- Enqueue, mirroring tcp_ack_filter_qdisc.rs lines 32-58: bump the packet
counter, garbage-collect flows idle for 120 s every 1024 packets, record or
raise the highest ack of a pure-ACK flow, then delegate to the inner qdisc. -/
def enqueue {T K : Type} [DecidableEq K] (s : TcpAckFilterQdisc T K)
    (ctx : PacketContext T K) (now : Nat) :
    TcpAckFilterQdisc T K × Option (PacketContext T K) :=
  let counter := s.packet_counter + 1
  let acks0 :=
    if counter % 1024 = 0 then
      s.highest_acks.filter (fun kv => now - kv.2.2 < 120000)
    else s.highest_acks
  let acks1 :=
    if ctx.is_pure_ack then
      let entry0 := (lookupA acks0 ctx.key).getD (ctx.tcp_ack_num, now)
      let hi := if ackNewer ctx.tcp_ack_num entry0.1 then ctx.tcp_ack_num
                else entry0.1
      insertA acks0 ctx.key (hi, now)
    else acks0
  let r := s.inner.enqueue ctx
  ({ s with inner := r.1, highest_acks := acks1, packet_counter := counter },
   r.2)

/-- Peek, mirroring lines 60-64: a pure delegation to the inner qdisc, so a
superseded ACK at the head is reported as a normal context. -/
def peek {T K : Type} (s : TcpAckFilterQdisc T K) (now : Nat) :
    TcpAckFilterQdisc T K × Option (PacketContext T K) :=
  let p := s.inner.peek now
  ({ s with inner := p.1 }, p.2)

/-- The recorded highest ack strictly supersedes the ack of ctx. -/
def superseded {T K : Type} [DecidableEq K] (s : TcpAckFilterQdisc T K)
    (ctx : PacketContext T K) : Bool :=
  match lookupA s.highest_acks ctx.key with
  | some e => ackNewer e.1 ctx.tcp_ack_num
  | none => false

/-- The dequeue loop of lines 66-81 with explicit fuel: pop from the inner
qdisc, divert superseded pure-ACKs into the dropped buffer, and return the
first survivor. -/
def dequeueLoop {T K : Type} [DecidableEq K] :
    Nat → TcpAckFilterQdisc T K → Nat →
      TcpAckFilterQdisc T K × Option (PacketContext T K)
  | 0, s, _ => (s, none)
  | fuel + 1, s, now =>
    let r := s.inner.dequeue now
    match r.2 with
    | none => ({ s with inner := r.1 }, none)
    | some ctx =>
      if ctx.is_pure_ack ∧ superseded s ctx then
        dequeueLoop fuel
          { s with inner := r.1, dropped := s.dropped ++ [ctx] } now
      else
        ({ s with inner := r.1 }, some ctx)

/-- Dequeue: the loop always terminates because every iteration removes a
context from the inner queue, so the queue length bounds the iterations. -/
def dequeue {T K : Type} [DecidableEq K] (s : TcpAckFilterQdisc T K)
    (now : Nat) : TcpAckFilterQdisc T K × Option (PacketContext T K) :=
  dequeueLoop (s.inner.queue.length + 1) s now

/-- Collect, mirroring lines 83-87: the local dropped buffer first, then
the drops surfaced by the inner qdisc. -/
def collect_dropped {T K : Type} (s : TcpAckFilterQdisc T K) :
    TcpAckFilterQdisc T K × List (PacketContext T K) :=
  let r := s.inner.collect_dropped
  ({ s with inner := r.1, dropped := [] }, s.dropped ++ r.2)

end TcpAckFilterQdisc

namespace TcpAckFilterQdisc

theorem dequeueLoop_step_keep {T K : Type} [DecidableEq K] (fuel : Nat)
    (s : TcpAckFilterQdisc T K) (now : Nat) (d : PacketContext T K)
    (h2 : (s.inner.dequeue now).2 = some d)
    (hd : ¬(d.is_pure_ack ∧ superseded s d)) :
    dequeueLoop (fuel + 1) s now
      = ({ s with inner := (s.inner.dequeue now).1 }, some d) := by
  simp only [dequeueLoop]
  rw [h2]
  simp only [hd, if_false]

theorem dequeueLoop_sound {T K : Type} [DecidableEq K] :
    ∀ (fuel : Nat) (s s2 : TcpAckFilterQdisc T K) (now : Nat)
      (c : PacketContext T K),
      dequeueLoop fuel s now = (s2, some c) → c.is_pure_ack = true →
      superseded s c = false := by
  intro fuel
  induction fuel with
  | zero =>
    intro s s2 now c h _
    simp [dequeueLoop] at h
  | succ n ih =>
    intro s s2 now c h hpure
    simp only [dequeueLoop] at h
    cases hr : (s.inner.dequeue now).2 with
    | none => rw [hr] at h; simp at h
    | some ctx =>
      rw [hr] at h
      by_cases hc : ctx.is_pure_ack ∧ superseded s ctx
      · simp only [hc, if_true] at h
        have := ih _ s2 now c h hpure
        exact this
      · simp only [hc, if_false] at h
        have hcc : ctx = c := by
          have := congrArg Prod.snd h
          simpa using this
        subst hcc
        rw [hpure] at hc
        by_cases hs : superseded s ctx
        · exact absurd ⟨rfl, hs⟩ hc
        · simpa using hs

end TcpAckFilterQdisc

/-- C3 counterexample: with a superseded pure-ACK at the head of the inner
queue, peek of TcpAckFilterQdisc reports that stale ACK while the dequeue
that follows skips it and returns the later ACK, so peek and an immediately
following dequeue disagree. The filter state is reached by two enqueues of
pure-ACKs 100 then 200 on the same flow. -/
theorem C3_counterexample :
    (((((TcpAckFilterQdisc.new (FifoQdisc.new Nat Nat 1000 10)).enqueue
        (mkAckCtx 0 7 40 100) 0).1.enqueue (mkAckCtx 1 7 40 200) 0).1.peek 0).2
      = some (mkAckCtx 0 7 40 100)) ∧
    ((((((TcpAckFilterQdisc.new (FifoQdisc.new Nat Nat 1000 10)).enqueue
        (mkAckCtx 0 7 40 100) 0).1.enqueue (mkAckCtx 1 7 40 200) 0).1.peek
        0).1.dequeue 0).2 = some (mkAckCtx 1 7 40 200)) ∧
    mkAckCtx 0 7 40 100 ≠ mkAckCtx 1 7 40 200 := by
  decide

/-- C3 (amended): when peek returns Some(c), an immediately following
dequeue returns that same context, for the FifoQdisc always, and for the
TcpAckFilterQdisc provided the reported head is not a pure-ACK already
superseded by the recorded highest ACK of its flow; a superseded pure-ACK
head is reported by peek but skipped and dropped by dequeue. -/
theorem C3_peek_dequeue_agreement {T K : Type} [DecidableEq K]
    (q : FifoQdisc T K) (s : TcpAckFilterQdisc T K) (now : Nat)
    (c d : PacketContext T K)
    (hq : (q.peek now).2 = some c)
    (hs : (s.peek now).2 = some d)
    (hd : ¬(d.is_pure_ack ∧ TcpAckFilterQdisc.superseded s d)) :
    ((q.peek now).1.dequeue now).2 = some c ∧
    ((s.peek now).1.dequeue now).2 = some d := by
  refine ⟨FifoQdisc.peek_then_dequeue q now c hq, ?_⟩
  have hinner : (s.peek now).2 = (s.inner.peek now).2 := rfl
  rw [hinner] at hs
  have hdq : (((s.inner.peek now).1).dequeue now).2 = some d :=
    FifoQdisc.peek_then_dequeue s.inner now d hs
  have hstate : (s.peek now).1 = { s with inner := (s.inner.peek now).1 } := rfl
  rw [hstate]
  have hsup : TcpAckFilterQdisc.superseded
      { s with inner := (s.inner.peek now).1 } d
      = TcpAckFilterQdisc.superseded s d := rfl
  unfold TcpAckFilterQdisc.dequeue
  rw [TcpAckFilterQdisc.dequeueLoop_step_keep _ _ _ d hdq]
  rw [hsup]
  exact hd

/-- Witness for C3: the agreement applied to a concrete FIFO holding one
fresh context and a concrete filter holding one non-superseded pure-ACK. -/
theorem C3_peek_dequeue_agreement_witness :
    (((FifoQdisc.mk [mkCtx 0 0 100 100 0 0] 1000 8 []).peek 0).1.dequeue 0).2
      = some (mkCtx 0 0 100 100 0 0) ∧
    (((TcpAckFilterQdisc.mk (FifoQdisc.mk [mkAckCtx 1 7 40 200] 1000 8 [])
        [(7, (200, 0))] [] 2).peek 0).1.dequeue 0).2
      = some (mkAckCtx 1 7 40 200) :=
  C3_peek_dequeue_agreement
    (FifoQdisc.mk [mkCtx 0 0 100 100 0 0] 1000 8 [])
    (TcpAckFilterQdisc.mk (FifoQdisc.mk [mkAckCtx 1 7 40 200] 1000 8 [])
      [(7, (200, 0))] [] 2)
    0 (mkCtx 0 0 100 100 0 0) (mkAckCtx 1 7 40 200)
    (by decide) (by decide) (by decide)

/-- C5: the newness of 32-bit ACK numbers is the signed wraparound
comparison; dequeue of the TcpAckFilterQdisc returns only contexts that are
not superseded by the recorded highest ACK of their flow, and in the S4
scenario of pure-ACKs 100, 200, 150 enqueued on one flow, only ACK 200 is
returned by dequeue while ACKs 100 and 150 are surfaced by collect_dropped. -/
theorem C5_ack_supersede :
    (∀ (fuel : Nat) (s s2 : TcpAckFilterQdisc Nat Nat) (now : Nat)
      (c : PacketContext Nat Nat),
      TcpAckFilterQdisc.dequeueLoop fuel s now = (s2, some c) →
      c.is_pure_ack = true → TcpAckFilterQdisc.superseded s c = false) ∧
    (((((((TcpAckFilterQdisc.new (FifoQdisc.new Nat Nat 1000 10)).enqueue
        (mkAckCtx 0 7 40 100) 0).1.enqueue (mkAckCtx 1 7 40 200) 0).1.enqueue
        (mkAckCtx 2 7 40 150) 0).1.dequeue 0).2 = some (mkAckCtx 1 7 40 200)) ∧
     (((((((TcpAckFilterQdisc.new (FifoQdisc.new Nat Nat 1000 10)).enqueue
        (mkAckCtx 0 7 40 100) 0).1.enqueue (mkAckCtx 1 7 40 200) 0).1.enqueue
        (mkAckCtx 2 7 40 150) 0).1.dequeue 0).1.dequeue 0).2 = none) ∧
     ((((((((TcpAckFilterQdisc.new (FifoQdisc.new Nat Nat 1000 10)).enqueue
        (mkAckCtx 0 7 40 100) 0).1.enqueue (mkAckCtx 1 7 40 200) 0).1.enqueue
        (mkAckCtx 2 7 40 150) 0).1.dequeue 0).1.dequeue 0).1.dequeue 0).2
       = none) ∧
     (((((((((TcpAckFilterQdisc.new (FifoQdisc.new Nat Nat 1000 10)).enqueue
        (mkAckCtx 0 7 40 100) 0).1.enqueue (mkAckCtx 1 7 40 200) 0).1.enqueue
        (mkAckCtx 2 7 40 150) 0).1.dequeue 0).1.dequeue 0).1.dequeue
        0).1.collect_dropped).2
       = [mkAckCtx 0 7 40 100, mkAckCtx 2 7 40 150])) := by
  constructor
  · intro fuel s s2 now c h hp
    exact TcpAckFilterQdisc.dequeueLoop_sound fuel s s2 now c h hp
  · refine ⟨by decide, by decide, by decide, by decide⟩

/-- Witness for C5: the soundness statement applied to a concrete filter
whose inner queue head is the current highest ACK of its flow. -/
theorem C5_ack_supersede_witness :
    TcpAckFilterQdisc.superseded
      (TcpAckFilterQdisc.mk (FifoQdisc.mk [mkAckCtx 1 7 40 200] 1000 8 [])
        [(7, (200, 0))] [] 2) (mkAckCtx 1 7 40 200) = false :=
  C5_ack_supersede.1 2
    (TcpAckFilterQdisc.mk (FifoQdisc.mk [mkAckCtx 1 7 40 200] 1000 8 [])
      [(7, (200, 0))] [] 2)
    (TcpAckFilterQdisc.mk (FifoQdisc.mk [] 1000 8 [])
      [(7, (200, 0))] [] 2)
    0 (mkAckCtx 1 7 40 200) (by decide) (by decide)

/-- In an arrival-sorted queue every stale context lies in the stale
prefix removed by the expiry sweep. -/
theorem mem_takeWhile_of_stale {T K : Type} (ml now : Nat)
    (l : List (PacketContext T K))
    (hsort : l.Pairwise (fun a b => a.arrival_time ≤ b.arrival_time))
    (x : PacketContext T K) (hx : x ∈ l) (hs : isStale ml now x = true) :
    x ∈ l.takeWhile (isStale ml now) := by
  induction l with
  | nil => cases hx
  | cons a rest ih =>
    rw [List.pairwise_cons] at hsort
    obtain ⟨ha, hrest⟩ := hsort
    rcases List.mem_cons.mp hx with hxa | hxr
    · subst hxa
      rw [List.takeWhile_cons, hs]
      simp
    · have hsa : isStale ml now a = true := by
        have hle : a.arrival_time ≤ x.arrival_time := ha x hxr
        have hsub : now - x.arrival_time ≤ now - a.arrival_time :=
          Nat.sub_le_sub_left hle now
        simp only [isStale, decide_eq_true_eq] at hs ⊢
        omega
      rw [List.takeWhile_cons, hsa]
      simp only [if_true]
      exact List.mem_cons_of_mem a (ih hrest hxr)

/-- The preparation loop never changes max_latency. -/
theorem prepareLoop_ml {T K : Type} [DecidableEq K] :
    ∀ (fuel : Nat) (q : DrrQdisc T K) (now : Nat),
      ((DrrQdisc.prepareLoop fuel q now).1).max_latency = q.max_latency := by
  intro fuel
  induction fuel with
  | zero => intro q now; rfl
  | succ n ih =>
    intro q now
    simp only [DrrQdisc.prepareLoop]
    split
    · rfl
    · split
      · exact ih _ now
      · split
        · split
          · exact ih _ now
          · rfl
        · exact ih _ now

/-- Readiness shape: when the DRR preparation loop exits ready, the front
of the active ring names a flow whose already swept queue has a fresh head. -/
theorem prepareLoop_ready_shape {T K : Type} [DecidableEq K] :
    ∀ (fuel : Nat) (q : DrrQdisc T K) (now : Nat) (q1 : DrrQdisc T K),
      DrrQdisc.prepareLoop fuel q now = (q1, some true) →
      ∃ key restA flow c t, q1.active_queue = key :: restA ∧
        lookupA q1.flows key = some flow ∧ flow.queue = c :: t ∧
        isStale q1.max_latency now c = false := by
  intro fuel
  induction fuel with
  | zero =>
    intro q now q1 h
    simp [DrrQdisc.prepareLoop] at h
  | succ n ih =>
    intro q now q1 h
    cases hact : q.active_queue with
    | nil =>
      simp only [DrrQdisc.prepareLoop, hact] at h
      simp at h
    | cons key restActive =>
      simp only [DrrQdisc.prepareLoop, hact] at h
      cases hlook : lookupA q.flows key with
      | none =>
        simp only [hlook] at h
        exact ih _ now q1 h
      | some flow =>
        simp only [hlook] at h
        cases hhead : (FifoQdisc.sweep q.max_latency now flow.queue).1.head? with
        | none =>
          simp only [hhead] at h
          exact ih _ now q1 h
        | some ctx =>
          simp only [hhead] at h
          by_cases hdef : flow.deficit < (ctx.pkt_len : Int)
          · rw [if_pos hdef] at h
            exact ih _ now q1 h
          · rw [if_neg hdef] at h
            rw [Prod.mk.injEq] at h
            obtain ⟨h1, -⟩ := h
            subst h1
            obtain ⟨t, hqt⟩ :
                ∃ t, (FifoQdisc.sweep q.max_latency now flow.queue).1
                  = ctx :: t := by
              cases hq1 : (FifoQdisc.sweep q.max_latency now flow.queue).1 with
              | nil => rw [hq1] at hhead; cases hhead
              | cons a rest =>
                rw [hq1] at hhead
                simp only [List.head?] at hhead
                cases hhead
                exact ⟨rest, rfl⟩
            refine ⟨key, restActive, _, ctx, t, rfl,
              lookupA_insertA_self _ _ _, ?_, ?_⟩
            · simpa using hqt
            · exact sweep_head_fresh _ _ _ _ hhead

/-- DRR dequeue never returns a stale context: the preparation loop sweeps
the served flow before it is declared ready. -/
theorem drr_dequeue_fresh {T K : Type} [DecidableEq K] (fuel : Nat)
    (d : DrrQdisc T K) (now : Nat) (c : PacketContext T K)
    (h : (DrrQdisc.dequeue fuel d now).2 = some c) :
    isStale d.max_latency now c = false := by
  unfold DrrQdisc.dequeue at h
  cases hp : DrrQdisc.prepareLoop fuel d now with
  | mk q1 ob =>
    cases ob with
    | none => simp only [hp] at h; simp at h
    | some b =>
      cases b with
      | false => simp only [hp] at h; simp at h
      | true =>
        simp only [hp] at h
        obtain ⟨key, restA, flow, cc, t, hact, hlook, hqt, hfresh⟩ :=
          prepareLoop_ready_shape fuel d now q1 hp
        have hml : q1.max_latency = d.max_latency := by
          have hm := prepareLoop_ml fuel d now
          rw [hp] at hm
          exact hm
        simp only [hact] at h
        simp only [hlook] at h
        simp only [hqt] at h
        by_cases he : t.isEmpty = true
        · rw [if_pos he] at h
          simp only [Prod.snd] at h
          cases h
          rw [hml] at hfresh
          exact hfresh
        · rw [if_neg he] at h
          simp only [Prod.snd] at h
          cases h
          rw [hml] at hfresh
          exact hfresh

/-- C7: any queued context stale at the next peek is moved to the
pending_expired buffer (for arrival-sorted queues, as produced by in-order
arrival stamping) and handed out by collect_dropped, never by dequeue; the
first conjunct is the S2 scenario: a sole context enqueued at t=0 with
max_latency 10 ms makes a peek at t=50 ms return none and collect_dropped
yield exactly that context; the DrrQdisc side never returns a stale
context from dequeue, the expiry sweep that both qdiscs run on a touched
queue moves every stale context of an arrival-sorted queue into the
expired batch, and DrrQdisc.collect_dropped drains the pending buffer. -/
theorem C7_staleness {T K : Type} [DecidableEq K]
    (q : FifoQdisc T K) (now : Nat)
    (hsort : q.queue.Pairwise (fun a b => a.arrival_time ≤ b.arrival_time))
    (d : DrrQdisc T K) (fuel dnow : Nat) :
    ((((FifoQdisc.new Nat Nat 10 2048).enqueue (mkCtx 0 0 100 100 0 0)).1.peek
        50).2 = none
      ∧ (((((FifoQdisc.new Nat Nat 10 2048).enqueue
          (mkCtx 0 0 100 100 0 0)).1.peek 50).1.collect_dropped).2
        = [mkCtx 0 0 100 100 0 0]))
    ∧ (∀ ctx ∈ q.queue, isStale q.max_latency now ctx = true →
        ctx ∈ (q.peek now).1.pending_expired)
    ∧ ((q.peek now).1.collect_dropped).2 = (q.peek now).1.pending_expired
    ∧ (∀ c, (q.dequeue now).2 = some c → isStale q.max_latency now c = false)
    ∧ (∀ c, (DrrQdisc.dequeue fuel d dnow).2 = some c →
        isStale d.max_latency dnow c = false)
    ∧ (∀ (ml now2 : Nat) (l : List (PacketContext T K)),
        l.Pairwise (fun a b => a.arrival_time ≤ b.arrival_time) →
        ∀ ctx ∈ l, isStale ml now2 ctx = true →
          ctx ∈ (FifoQdisc.sweep ml now2 l).2)
    ∧ (d.collect_dropped).2 = d.pending_expired := by
  refine ⟨⟨by decide, by decide⟩, ?_, rfl, ?_, ?_, ?_, rfl⟩
  · intro ctx hmem hstale
    have hpe : (q.peek now).1.pending_expired
        = q.pending_expired ++ q.queue.takeWhile (isStale q.max_latency now) := by
      simp [FifoQdisc.peek, sweep_eq_span]
    rw [hpe]
    exact List.mem_append_right _
      (mem_takeWhile_of_stale _ _ _ hsort ctx hmem hstale)
  · intro c hc
    exact FifoQdisc.dequeue_fresh q now c hc
  · intro c hc
    exact drr_dequeue_fresh fuel d dnow c hc
  · intro ml now2 l hsort2 ctx hmem hstale
    rw [sweep_eq_span]
    exact mem_takeWhile_of_stale ml now2 l hsort2 ctx hmem hstale

/-- Witness for C7: a stale sole context is found in the expiry buffer
after peek on a concrete FIFO. -/
theorem C7_staleness_witness :
    mkCtx 5 0 100 100 0 0 ∈
      ((FifoQdisc.mk [mkCtx 5 0 100 100 0 0] 10 2048 []).peek
        50).1.pending_expired :=
  (C7_staleness (FifoQdisc.mk [mkCtx 5 0 100 100 0 0] 10 2048 []) 50
    (by simp) (DrrQdisc.new Nat Nat 100 2048 1500) 4 0).2.1
    (mkCtx 5 0 100 100 0 0) (by decide) (by decide)

-- ==========================================
-- Modifier chain (modifier/*.rs, wired in main.rs)
-- ==========================================

namespace PaddingModifier

/-- Padding modifier (padding.rs lines 12-17):
cost = ((cost + block_size - 1) / block_size) * block_size. -/
def process {T K : Type} (block_size : Nat) (ctx : PacketContext T K) :
    PacketContext T K :=
  { ctx with cost := (ctx.cost + block_size - 1) / block_size * block_size }

end PaddingModifier

namespace FragmentModifier

/-- Fragment modifier (fragment.rs lines 9-13):
frames = max(ceil(cost / mtu), 1). The source computes the ceiling through
f64 division; for the configured MTU values and any realistic cost both
operands are far below 2^52, where the f64 computation is exact and agrees
with the Nat ceiling division used here. -/
def process {T K : Type} (mtu : Nat) (ctx : PacketContext T K) :
    PacketContext T K :=
  { ctx with frames := max ((ctx.cost + mtu - 1) / mtu) 1 }

end FragmentModifier

namespace OverheadModifier

/-- Overhead modifier (overhead.rs lines 9-13):
cost += overhead_bytes * frames. -/
def process {T K : Type} (overhead_bytes : Nat) (ctx : PacketContext T K) :
    PacketContext T K :=
  { ctx with cost := ctx.cost + overhead_bytes * ctx.frames }

end OverheadModifier

namespace TcpAckModifier

/-- TCP-ACK sniffing modifier (tcp_ack_modifier.rs): the payload is modelled
as a list of byte values; the modifier only stamps is_pure_ack and
tcp_ack_num and never touches cost or frames. -/
def process {K : Type} (ctx : PacketContext (List Nat) K) :
    PacketContext (List Nat) K :=
  let base := { ctx with is_pure_ack := false, tcp_ack_num := 0 }
  let data := ctx.msg
  if data.length < 20 then base
  else if ¬(data.getD 0 0 / 16 = 4 ∧ data.getD 9 0 = 6) then base
  else
    let ihl := data.getD 0 0 % 16 * 4
    if data.length < ihl + 20 then base
    else
      let tcp := data.drop ihl
      let data_offset := tcp.getD 12 0 / 16 * 4
      if data.length = ihl + data_offset then
        if tcp.getD 13 0 / 16 % 2 = 1 then
          { base with
            is_pure_ack := true,
            tcp_ack_num := tcp.getD 8 0 * 2 ^ 24 + tcp.getD 9 0 * 2 ^ 16
              + tcp.getD 10 0 * 2 ^ 8 + tcp.getD 11 0 }
        else base
      else base

end TcpAckModifier

/-- Per-fragment link overhead of the VPN lanes (main.rs line 29). -/
def OVERHEAD : Nat := 14 + 4 + 20 + 60

/-- Per-fragment link overhead of the plain lanes (main.rs line 30). -/
def OVERHEAD2 : Nat := 18 + 20

/-- WireGuard MTU (main.rs line 32). -/
def WG_MTU : Nat := 1280

/-- Ethernet MTU (main.rs line 33). -/
def ETH_MTU : Nat := 1500

/-- Modifier chain of the VPN lanes 0-3 (main.rs lines 58-68). -/
def vpnChain {K : Type} (ctx : PacketContext (List Nat) K) :
    PacketContext (List Nat) K :=
  OverheadModifier.process OVERHEAD
    (FragmentModifier.process WG_MTU
      (PaddingModifier.process 16 (TcpAckModifier.process ctx)))

/-- Modifier chain of the plain lanes 4-5 (main.rs lines 70-79). -/
def plainChain {K : Type} (ctx : PacketContext (List Nat) K) :
    PacketContext (List Nat) K :=
  OverheadModifier.process OVERHEAD2
    (FragmentModifier.process ETH_MTU (TcpAckModifier.process ctx))

theorem le_ceil_mul (a b : Nat) (hb : 0 < b) : a ≤ (a + b - 1) / b * b := by
  have h1 := Nat.div_add_mod (a + b - 1) b
  have h2 := Nat.mod_lt (a + b - 1) hb
  have h3 : (a + b - 1) / b * b + (a + b - 1) % b = a + b - 1 := by
    rw [Nat.mul_comm]
    exact h1
  omega

theorem tcpAck_cost {K : Type} (ctx : PacketContext (List Nat) K) :
    (TcpAckModifier.process ctx).cost = ctx.cost
      ∧ (TcpAckModifier.process ctx).frames = ctx.frames
      ∧ (TcpAckModifier.process ctx).pkt_len = ctx.pkt_len := by
  unfold TcpAckModifier.process
  dsimp only
  refine ⟨?_, ?_, ?_⟩ <;> (repeat' split) <;> rfl

/-- C9: starting from cost = pkt_len and frames = 1, both configured
modifier chains (TcpAckSniff, Padding 16, Fragment, Overhead for VPN lanes;
TcpAckSniff, Fragment, Overhead for plain lanes) yield cost at least
pkt_len and frames at least 1; the padding modifier computes the block
ceiling of the cost, and no modifier of these chains ever decreases cost. -/
theorem C9_cost_monotonicity {K : Type} (ctx : PacketContext (List Nat) K)
    (hinit : ctx.cost = ctx.pkt_len) (hframes : ctx.frames = 1) :
    (ctx.pkt_len ≤ (vpnChain ctx).cost ∧ 1 ≤ (vpnChain ctx).frames) ∧
    (ctx.pkt_len ≤ (plainChain ctx).cost ∧ 1 ≤ (plainChain ctx).frames) ∧
    (∀ (block : Nat) (c : PacketContext (List Nat) K), 0 < block →
      (PaddingModifier.process block c).cost
          = (c.cost + block - 1) / block * block
        ∧ c.cost ≤ (PaddingModifier.process block c).cost) ∧
    (∀ c : PacketContext (List Nat) K,
      (TcpAckModifier.process c).cost = c.cost) ∧
    (∀ (mtu : Nat) (c : PacketContext (List Nat) K),
      (FragmentModifier.process mtu c).cost = c.cost) ∧
    (∀ (ov : Nat) (c : PacketContext (List Nat) K),
      c.cost ≤ (OverheadModifier.process ov c).cost) := by
  obtain ⟨hc, hf, hp⟩ := tcpAck_cost ctx
  refine ⟨⟨?_, ?_⟩, ⟨?_, ?_⟩, ?_, ?_, ?_, ?_⟩
  · calc ctx.pkt_len = ctx.cost := hinit.symm
      _ = (TcpAckModifier.process ctx).cost := hc.symm
      _ ≤ (PaddingModifier.process 16 (TcpAckModifier.process ctx)).cost :=
          le_ceil_mul _ 16 (by decide)
      _ = (FragmentModifier.process WG_MTU
            (PaddingModifier.process 16 (TcpAckModifier.process ctx))).cost :=
          rfl
      _ ≤ (vpnChain ctx).cost := Nat.le_add_right _ _
  · exact le_max_right _ 1
  · calc ctx.pkt_len = ctx.cost := hinit.symm
      _ = (TcpAckModifier.process ctx).cost := hc.symm
      _ = (FragmentModifier.process ETH_MTU
            (TcpAckModifier.process ctx)).cost := rfl
      _ ≤ (plainChain ctx).cost := Nat.le_add_right _ _
  · exact le_max_right _ 1
  · intro block c hb
    exact ⟨rfl, le_ceil_mul c.cost block hb⟩
  · intro c
    exact (tcpAck_cost c).1
  · intro mtu c
    rfl
  · intro ov c
    exact Nat.le_add_right _ _

/-- Helper to build a concrete byte-payload context entering the modifier
chain with cost = pkt_len and frames = 1. -/
def mkCtxB (pkt : Nat) : PacketContext (List Nat) Nat :=
  { msg := [], key := 0, pkt_len := pkt, cost := pkt, queue_num := 0,
    arrival_time := 0, frames := 1, is_pure_ack := false, tcp_ack_num := 0 }

/-- Witness for C9: the chain bounds applied to a concrete 1000-byte
context entering with cost = pkt_len and frames = 1. -/
theorem C9_cost_monotonicity_witness :
    (1000 ≤ (vpnChain (mkCtxB 1000)).cost
      ∧ 1 ≤ (vpnChain (mkCtxB 1000)).frames) ∧
    (1000 ≤ (plainChain (mkCtxB 1000)).cost
      ∧ 1 ≤ (plainChain (mkCtxB 1000)).frames) :=
  ⟨(C9_cost_monotonicity (mkCtxB 1000) (by decide) (by decide)).1,
   (C9_cost_monotonicity (mkCtxB 1000) (by decide) (by decide)).2.1⟩

-- ==========================================
-- TokenBucket (token_bucket.rs) and RootHtbQdisc (root_htb_qdisc.rs)
-- ==========================================

/-- Token bucket limiter, mirroring token_bucket.rs. The f64 token balance
is modelled as a rational. Refill is driven by the elapsed seconds since
the last update; within one dequeue call no time elapses (the elapsed time
stays below the 100 microsecond threshold), so the bucket state entering an
operation carries the already refilled balance and can_spend and consume
reduce to the pure comparison and subtraction below. -/
structure TokenBucket where
  tokens : ℚ
  rate : ℚ
  capacity : ℚ
  deriving DecidableEq, Repr

namespace TokenBucket

/-- Refill, mirroring token_bucket.rs lines 30-42, as a function of the
elapsed seconds. -/
def refill (b : TokenBucket) (elapsed : ℚ) : TokenBucket :=
  if 1 / 10000 < elapsed then
    { b with tokens := min b.capacity (b.tokens + b.rate * elapsed) }
  else b

/-- can_spend, mirroring lines 63-66 at zero elapsed time. -/
def can_spend (b : TokenBucket) (cost : Nat) : Bool :=
  (cost : ℚ) ≤ b.tokens

/-- consume, mirroring lines 45-61 at zero elapsed time. -/
def consume (b : TokenBucket) (cost : Nat) : TokenBucket × Bool :=
  if (cost : ℚ) ≤ b.tokens then
    ({ b with tokens := b.tokens - (cost : ℚ) }, true)
  else (b, false)

end TokenBucket

/-- Two-lane HTB gate, mirroring root_htb_qdisc.rs, with the boxed child
qdiscs instantiated with the FifoQdisc model. -/
structure RootHtbQdisc (T K : Type) where
  high_queue : FifoQdisc T K
  default_queue : FifoQdisc T K
  global_bucket : TokenBucket
  high_bucket : TokenBucket
  reserved_bytes : Nat
  classifier : PacketContext T K → Bool

namespace RootHtbQdisc

/-- Enqueue, mirroring root_htb_qdisc.rs lines 59-68. -/
def enqueue {T K : Type} (s : RootHtbQdisc T K) (ctx : PacketContext T K) :
    RootHtbQdisc T K × Option (PacketContext T K) :=
  if s.classifier ctx then
    let r := s.high_queue.enqueue ctx
    ({ s with high_queue := r.1 }, r.2)
  else
    let r := s.default_queue.enqueue ctx
    ({ s with default_queue := r.1 }, r.2)

/-- The default-lane half of dequeue (root_htb_qdisc.rs lines 101-112):
serve the default head only when the global bucket covers its cost plus the
reserve, and debit the global bucket by the cost only. -/
def dequeueDefault {T K : Type} (s : RootHtbQdisc T K) (now : Nat) :
    RootHtbQdisc T K × Option (PacketContext T K) :=
  let pd := s.default_queue.peek now
  let s1 := { s with default_queue := pd.1 }
  match pd.2 with
  | some ctx =>
    if s1.global_bucket.can_spend (ctx.cost + s1.reserved_bytes) then
      let dd := s1.default_queue.dequeue now
      match dd.2 with
      | some final_ctx =>
        ({ s1 with
            default_queue := dd.1,
            global_bucket := (s1.global_bucket.consume final_ctx.cost).1 },
         some final_ctx)
      | none => ({ s1 with default_queue := dd.1 }, none)
    else (s1, none)
  | none => (s1, none)

/-- Dequeue, mirroring root_htb_qdisc.rs lines 88-113: strict priority for
the high lane subject to both buckets, then the default lane subject to the
reserve rule. -/
def dequeue {T K : Type} (s : RootHtbQdisc T K) (now : Nat) :
    RootHtbQdisc T K × Option (PacketContext T K) :=
  let ph := s.high_queue.peek now
  let s1 := { s with high_queue := ph.1 }
  match ph.2 with
  | some ctx =>
    if s1.high_bucket.can_spend ctx.cost && s1.global_bucket.can_spend ctx.cost
    then
      let dh := s1.high_queue.dequeue now
      match dh.2 with
      | some final_ctx =>
        ({ s1 with
            high_queue := dh.1,
            high_bucket := (s1.high_bucket.consume final_ctx.cost).1,
            global_bucket := (s1.global_bucket.consume final_ctx.cost).1 },
         some final_ctx)
      | none => dequeueDefault { s1 with high_queue := dh.1 } now
    else dequeueDefault s1 now
  | none => dequeueDefault s1 now

/-- Collect, mirroring lines 115-120. -/
def collect_dropped {T K : Type} (s : RootHtbQdisc T K) :
    RootHtbQdisc T K × List (PacketContext T K) :=
  let rh := s.high_queue.collect_dropped
  let rd := s.default_queue.collect_dropped
  ({ s with high_queue := rh.1, default_queue := rd.1 }, rh.2 ++ rd.2)

end RootHtbQdisc

/-- Under the reserve, the default lane is never served: the global bucket
cannot cover cost + reserved_bytes when its tokens are below the reserve. -/
theorem dequeueDefault_none_of_reserve {T K : Type} (s : RootHtbQdisc T K)
    (now : Nat) (hres : s.global_bucket.tokens < (s.reserved_bytes : ℚ)) :
    (RootHtbQdisc.dequeueDefault s now).2 = none := by
  unfold RootHtbQdisc.dequeueDefault
  cases hpd : (s.default_queue.peek now).2 with
  | none => simp [hpd]
  | some ctx =>
    simp only [hpd]
    have hno : TokenBucket.can_spend s.global_bucket
        (ctx.cost + s.reserved_bytes) = false := by
      unfold TokenBucket.can_spend
      simp only [decide_eq_false_iff_not, not_le]
      have h1 : (s.reserved_bytes : ℚ) ≤ ((ctx.cost + s.reserved_bytes : Nat) : ℚ) := by
        push_cast
        have : (0 : ℚ) ≤ (ctx.cost : ℚ) := by positivity
        linarith
      linarith
    rw [hno]
    simp

/-- C4 counterexample state: the global bucket is empty (below the 1000
byte reserve), both lanes are backlogged with fresh 500-cost heads, and the
high bucket alone covers the high head. -/
def htbCex : RootHtbQdisc Nat Nat :=
  { high_queue := FifoQdisc.mk [mkCtx 10 0 500 500 2 0] 1000 8 [],
    default_queue := FifoQdisc.mk [mkCtx 11 1 500 500 4 0] 1000 8 [],
    global_bucket := { tokens := 0, rate := 862500, capacity := 296960 },
    high_bucket := { tokens := 10000, rate := 750000, capacity := 81920 },
    reserved_bytes := 1000,
    classifier := fun c => c.queue_num == 2 }

/-- C4 counterexample: with global tokens below reserved_bytes, the high
bucket covering the high head is not enough: dequeue also requires the
global bucket to cover the cost, so it returns none here, refuting the
claim that the high lane can be served whenever its own bucket covers the
head. -/
theorem C4_counterexample :
    htbCex.global_bucket.tokens < (htbCex.reserved_bytes : ℚ) ∧
    (htbCex.high_queue.peek 0).2 = some (mkCtx 10 0 500 500 2 0) ∧
    TokenBucket.can_spend htbCex.high_bucket 500 = true ∧
    (htbCex.default_queue.peek 0).2 = some (mkCtx 11 1 500 500 4 0) ∧
    (RootHtbQdisc.dequeue htbCex 0).2 = none := by
  refine ⟨by norm_num [htbCex], by decide, by decide, by decide, by decide⟩

/-- C4 (amended): when the global bucket holds fewer tokens than
reserved_bytes, every context returned by RootHtbQdisc.dequeue comes from
the high lane and requires both the high bucket and the global bucket to
cover its cost, with the global bucket debited by exactly the cost; the
default lane yields nothing even if backlogged. Unconditionally, the high
head is served whenever both buckets cover it, and a context served from
the default lane (high lane empty) requires the global bucket to cover
cost + reserved_bytes and is debited by the cost only. -/
theorem C4_htb_reserve {T K : Type} (s : RootHtbQdisc T K) (now : Nat) :
    (s.global_bucket.tokens < (s.reserved_bytes : ℚ) →
      ∀ c, (RootHtbQdisc.dequeue s now).2 = some c →
        (s.high_queue.peek now).2 = some c
        ∧ (c.cost : ℚ) ≤ s.high_bucket.tokens
        ∧ (c.cost : ℚ) ≤ s.global_bucket.tokens
        ∧ (RootHtbQdisc.dequeue s now).1.global_bucket.tokens
            = s.global_bucket.tokens - (c.cost : ℚ))
  ∧ (∀ c, (s.high_queue.peek now).2 = some c →
      s.high_bucket.can_spend c.cost = true →
      s.global_bucket.can_spend c.cost = true →
      (RootHtbQdisc.dequeue s now).2 = some c)
  ∧ (∀ c, (s.high_queue.peek now).2 = none →
      (RootHtbQdisc.dequeue s now).2 = some c →
        (s.default_queue.peek now).2 = some c
        ∧ s.global_bucket.can_spend (c.cost + s.reserved_bytes) = true
        ∧ (RootHtbQdisc.dequeue s now).1.global_bucket.tokens
            = s.global_bucket.tokens - (c.cost : ℚ)) := by
  refine ⟨?_, ?_, ?_⟩
  · intro hres c hc
    unfold RootHtbQdisc.dequeue at hc ⊢
    cases hp : (s.high_queue.peek now).2 with
    | none =>
      simp only [hp] at hc
      have hnone := dequeueDefault_none_of_reserve
        { s with high_queue := (s.high_queue.peek now).1 } now hres
      rw [hnone] at hc
      cases hc
    | some ctx =>
      simp only [hp] at hc ⊢
      by_cases hcan : (s.high_bucket.can_spend ctx.cost
          && s.global_bucket.can_spend ctx.cost) = true
      · rw [if_pos hcan] at hc ⊢
        have hdh : ((s.high_queue.peek now).1.dequeue now).2 = some ctx :=
          FifoQdisc.peek_then_dequeue s.high_queue now ctx hp
        simp only [hdh] at hc ⊢
        have hcc : ctx = c := by simpa using hc
        subst hcc
        obtain ⟨h1, h2⟩ := Bool.and_eq_true_iff.mp hcan
        unfold TokenBucket.can_spend at h1 h2
        simp only [decide_eq_true_eq] at h1 h2
        refine ⟨rfl, h1, h2, ?_⟩
        unfold TokenBucket.consume
        rw [if_pos h2]
      · rw [if_neg hcan] at hc
        have hnone := dequeueDefault_none_of_reserve
          { s with high_queue := (s.high_queue.peek now).1 } now hres
        rw [hnone] at hc
        cases hc
  · intro c hp hhigh hglob
    unfold RootHtbQdisc.dequeue
    simp only [hp]
    have hcan : (s.high_bucket.can_spend c.cost
        && s.global_bucket.can_spend c.cost) = true := by
      rw [hhigh, hglob]; rfl
    rw [if_pos hcan]
    have hdh : ((s.high_queue.peek now).1.dequeue now).2 = some c :=
      FifoQdisc.peek_then_dequeue s.high_queue now c hp
    simp only [hdh]
  · intro c hp hc
    unfold RootHtbQdisc.dequeue at hc ⊢
    simp only [hp] at hc ⊢
    unfold RootHtbQdisc.dequeueDefault at hc ⊢
    cases hpd : (s.default_queue.peek now).2 with
    | none =>
      simp only [hpd] at hc
      cases hc
    | some ctx =>
      simp only [hpd] at hc ⊢
      by_cases hcs : TokenBucket.can_spend s.global_bucket
          (ctx.cost + s.reserved_bytes) = true
      · rw [if_pos hcs] at hc ⊢
        have hdd : ((s.default_queue.peek now).1.dequeue now).2 = some ctx :=
          FifoQdisc.peek_then_dequeue s.default_queue now ctx hpd
        simp only [hdd] at hc ⊢
        have hcc : ctx = c := by simpa using hc
        subst hcc
        refine ⟨rfl, hcs, ?_⟩
        unfold TokenBucket.consume
        unfold TokenBucket.can_spend at hcs
        simp only [decide_eq_true_eq] at hcs
        have hle : (ctx.cost : ℚ) ≤ s.global_bucket.tokens := by
          have hmono : ((ctx.cost : Nat) : ℚ)
              ≤ ((ctx.cost + s.reserved_bytes : Nat) : ℚ) := by
            push_cast
            have hnn : (0 : ℚ) ≤ (s.reserved_bytes : ℚ) := by positivity
            linarith
          linarith
        rw [if_pos hle]
      · rw [if_neg hcs] at hc
        cases hc

/-- C4 reachable-service state: global tokens 600 sit below the 1000 byte
reserve yet cover the 500-cost high head, as does the high bucket. -/
def htbWit : RootHtbQdisc Nat Nat :=
  { high_queue := FifoQdisc.mk [mkCtx 12 0 500 500 2 0] 1000 8 [],
    default_queue := FifoQdisc.mk [mkCtx 13 1 500 500 4 0] 1000 8 [],
    global_bucket := { tokens := 600, rate := 862500, capacity := 296960 },
    high_bucket := { tokens := 10000, rate := 750000, capacity := 81920 },
    reserved_bytes := 1000,
    classifier := fun c => c.queue_num == 2 }

/-- Witness for C4: with both buckets covering the high head, dequeue
serves the high lane even while the global tokens sit below the reserve. -/
theorem C4_htb_reserve_witness :
    (RootHtbQdisc.dequeue htbWit 0).2 = some (mkCtx 12 0 500 500 2 0) :=
  (C4_htb_reserve htbWit 0).2.1 (mkCtx 12 0 500 500 2 0)
    (by decide) (by decide) (by decide)

-- ==========================================
-- The S3 deficit-round-robin interleaving scenario
-- ==========================================

/-- Enqueue n identical 500-byte packets of flow k into a DRR qdisc. -/
def drrEnqMany : Nat → Nat → DrrQdisc Nat Nat → DrrQdisc Nat Nat
  | 0, _, q => q
  | n + 1, k, q => drrEnqMany n k ((q.enqueue (mkCtx 0 k 500 500 0 0)).1)

/-- The S3 state: quantum 1000, 100 packets of 500 bytes enqueued for flow
X = 0, then 100 packets of 500 bytes for flow Y = 1. -/
def c6Scenario : DrrQdisc Nat Nat :=
  drrEnqMany 100 1 (drrEnqMany 100 0 (DrrQdisc.new Nat Nat 100 2048 1000))

/-- Flow keys of n successive dequeues at time 0. -/
def drrDeqKeys : Nat → DrrQdisc Nat Nat → List Nat
  | 0, _ => []
  | n + 1, q =>
    let r := DrrQdisc.dequeue 16 q 0
    match r.2 with
    | some c => c.key :: drrDeqKeys n r.1
    | none => []

/-- The interleaving the claim asserts: two of X first, then two of Y. -/
def c6Claimed : List Nat := (List.replicate 50 [0, 0, 1, 1]).flatten

/-- The interleaving the code produces: two of Y first, then two of X. -/
def c6Actual : List Nat := (List.replicate 50 [1, 1, 0, 0]).flatten

set_option maxRecDepth 10000 in
/-- C6 counterexample: the 200 dequeues of the S3 scenario do not follow
the claimed 2X, 2Y, 2X, 2Y pattern; because new flows enter at the front
of the active ring, the later-arriving flow Y is served first. -/
theorem C6_counterexample : drrDeqKeys 200 c6Scenario ≠ c6Claimed := by
  decide

set_option maxRecDepth 10000 in
/-- C6 (amended): in the S3 scenario the 200 dequeues are strictly
interleaved two at a time starting with the later-arriving flow, in the
pattern 2Y, 2X, 2Y, 2X, ...; each quantum of 1000 covers two 500-byte
packets before the flow rotates to the tail, and a new flow enters at the
front of the active ring. -/
theorem C6_drr_interleaving :
    drrDeqKeys 200 c6Scenario = c6Actual ∧
    (∀ (q : DrrQdisc Nat Nat) (ctx : PacketContext Nat Nat),
      lookupA q.flows ctx.key = none →
      ((q.enqueue ctx).1).active_queue = ctx.key :: q.active_queue) := by
  constructor
  · decide
  · intro q ctx hf
    unfold DrrQdisc.enqueue
    simp only [hf]

/-- Witness for C6: a first packet of a fresh flow lands at the front of
the active ring of a concrete DRR qdisc that already serves flow 0. -/
theorem C6_drr_interleaving_witness :
    (((drrEnqMany 3 0 (DrrQdisc.new Nat Nat 100 2048 1000)).enqueue
        (mkCtx 0 9 500 500 0 0)).1).active_queue
      = 9 :: (drrEnqMany 3 0 (DrrQdisc.new Nat Nat 100 2048 1000)).active_queue :=
  C6_drr_interleaving.2 (drrEnqMany 3 0 (DrrQdisc.new Nat Nat 100 2048 1000))
    (mkCtx 0 9 500 500 0 0) (by decide)

-- ==========================================
-- SparseQdisc (sparse_qdisc.rs)
-- ==========================================

/-- New-versus-established flow splitter, mirroring sparse_qdisc.rs, with
the boxed child qdiscs instantiated with the FifoQdisc model. -/
structure SparseQdisc (T K : Type) where
  sparse_qdisc : FifoQdisc T K
  bulk_qdisc : FifoQdisc T K
  flow_counts : List (K × Nat)
  deriving DecidableEq, Repr

/-- The saturating decrement-and-erase of sparse_qdisc.rs (dequeue and
collect_dropped): decrement a present positive counter and remove the key
once the counter reaches zero. -/
def decKey {K : Type} [DecidableEq K] (m : List (K × Nat)) (key : K) :
    List (K × Nat) :=
  match lookupA m key with
  | some c =>
    let c1 := if 0 < c then c - 1 else c
    if c1 = 0 then removeA m key else insertA m key c1
  | none => m

namespace SparseQdisc

/-- Constructor mirroring SparseQdisc.new. -/
def new {T K : Type} (sparse_qdisc bulk_qdisc : FifoQdisc T K) :
    SparseQdisc T K :=
  { sparse_qdisc := sparse_qdisc, bulk_qdisc := bulk_qdisc, flow_counts := [] }

/-- Enqueue, mirroring sparse_qdisc.rs lines 44-76: a flow with in-flight
count zero goes to the sparse child, otherwise to the bulk child; the
counter is bumped only when the chosen child accepted the context. -/
def enqueue {T K : Type} [DecidableEq K] (s : SparseQdisc T K)
    (ctx : PacketContext T K) : SparseQdisc T K × Option (PacketContext T K) :=
  let key := ctx.key
  let current := (lookupA s.flow_counts key).getD 0
  if current = 0 then
    let r := s.sparse_qdisc.enqueue ctx
    match r.2 with
    | none =>
      ({ s with
          sparse_qdisc := r.1,
          flow_counts := insertA s.flow_counts key 1 }, none)
    | some rejected => ({ s with sparse_qdisc := r.1 }, some rejected)
  else
    let r := s.bulk_qdisc.enqueue ctx
    match r.2 with
    | none =>
      let fc := match lookupA s.flow_counts key with
        | some c => insertA s.flow_counts key (c + 1)
        | none => s.flow_counts
      ({ s with bulk_qdisc := r.1, flow_counts := fc }, none)
    | some rejected => ({ s with bulk_qdisc := r.1 }, some rejected)

/-- Dequeue, mirroring lines 85-115: sparse child first, then bulk, with
the counter of the popped key decremented and erased at zero. -/
def dequeue {T K : Type} [DecidableEq K] (s : SparseQdisc T K) (now : Nat) :
    SparseQdisc T K × Option (PacketContext T K) :=
  let rs := s.sparse_qdisc.dequeue now
  match rs.2 with
  | some ctx =>
    ({ s with
        sparse_qdisc := rs.1,
        flow_counts := decKey s.flow_counts ctx.key }, some ctx)
  | none =>
    let rb := s.bulk_qdisc.dequeue now
    match rb.2 with
    | some ctx =>
      ({ s with
          sparse_qdisc := rs.1,
          bulk_qdisc := rb.1,
          flow_counts := decKey s.flow_counts ctx.key }, some ctx)
    | none => ({ s with sparse_qdisc := rs.1, bulk_qdisc := rb.1 }, none)

/-- Peek, mirroring lines 78-83. -/
def peek {T K : Type} (s : SparseQdisc T K) (now : Nat) :
    SparseQdisc T K × Option (PacketContext T K) :=
  let ps := s.sparse_qdisc.peek now
  match ps.2 with
  | some ctx => ({ s with sparse_qdisc := ps.1 }, some ctx)
  | none =>
    let pb := s.bulk_qdisc.peek now
    ({ s with sparse_qdisc := ps.1, bulk_qdisc := pb.1 }, pb.2)

/-- Collect, mirroring lines 118-136: drain both children and decrement the
counter for every surfaced context. -/
def collect_dropped {T K : Type} [DecidableEq K] (s : SparseQdisc T K) :
    SparseQdisc T K × List (PacketContext T K) :=
  let r1 := s.sparse_qdisc.collect_dropped
  let r2 := s.bulk_qdisc.collect_dropped
  let drops := r1.2 ++ r2.2
  ({ s with
      sparse_qdisc := r1.1,
      bulk_qdisc := r2.1,
      flow_counts := drops.foldl (fun m c => decKey m c.key) s.flow_counts },
   drops)

end SparseQdisc

/-- C8 counterexample trace: sparse child capacity 1; flow 0 enqueues one
packet (count 1, in sparse); flow 1 enqueues: the sparse child head-drops
flow 0's packet through Err while admitting flow 1's packet, and no counter
changes; the dequeue then pops flow 1's packet, whose key has no counter.
The result leaves flow 0's counter at 1 although both children are empty:
the counter did not return to zero after all of flow 0's contexts exited. -/
theorem C8_counterexample :
    (((SparseQdisc.new (FifoQdisc.new Nat Nat 1000 1)
        (FifoQdisc.new Nat Nat 1000 8)).enqueue (mkCtx 20 0 400 400 0 0)).2
      = none) ∧
    ((((SparseQdisc.new (FifoQdisc.new Nat Nat 1000 1)
        (FifoQdisc.new Nat Nat 1000 8)).enqueue (mkCtx 20 0 400 400 0 0)).1.enqueue
        (mkCtx 21 1 400 400 0 0)).2 = some (mkCtx 20 0 400 400 0 0)) ∧
    ((((((SparseQdisc.new (FifoQdisc.new Nat Nat 1000 1)
        (FifoQdisc.new Nat Nat 1000 8)).enqueue (mkCtx 20 0 400 400 0 0)).1.enqueue
        (mkCtx 21 1 400 400 0 0)).1.dequeue 0).1.flow_counts = [(0, 1)])) ∧
    (((((SparseQdisc.new (FifoQdisc.new Nat Nat 1000 1)
        (FifoQdisc.new Nat Nat 1000 8)).enqueue (mkCtx 20 0 400 400 0 0)).1.enqueue
        (mkCtx 21 1 400 400 0 0)).1.dequeue 0).1.sparse_qdisc.queue = []) ∧
    (((((SparseQdisc.new (FifoQdisc.new Nat Nat 1000 1)
        (FifoQdisc.new Nat Nat 1000 8)).enqueue (mkCtx 20 0 400 400 0 0)).1.enqueue
        (mkCtx 21 1 400 400 0 0)).1.dequeue 0).1.sparse_qdisc.pending_expired
      = []) ∧
    (((((SparseQdisc.new (FifoQdisc.new Nat Nat 1000 1)
        (FifoQdisc.new Nat Nat 1000 8)).enqueue (mkCtx 20 0 400 400 0 0)).1.enqueue
        (mkCtx 21 1 400 400 0 0)).1.dequeue 0).1.bulk_qdisc.queue = []) ∧
    (((((SparseQdisc.new (FifoQdisc.new Nat Nat 1000 1)
        (FifoQdisc.new Nat Nat 1000 8)).enqueue (mkCtx 20 0 400 400 0 0)).1.enqueue
        (mkCtx 21 1 400 400 0 0)).1.dequeue 0).1.bulk_qdisc.pending_expired
      = []) := by
  decide

-- Association list lemmas for the counter invariant.

theorem lookupA_insertA_ne {K V : Type} [DecidableEq K]
    (m : List (K × V)) (key k : K) (v : V) (hne : k ≠ key) :
    lookupA (insertA m key v) k = lookupA m k := by
  induction m with
  | nil =>
    simp only [insertA, lookupA]
    rw [if_neg (fun h => hne h.symm)]
  | cons kv rest ih =>
    by_cases h : kv.1 = key
    · simp only [insertA, h, if_true]
      simp only [lookupA]
      rw [if_neg (fun h2 => hne h2.symm), if_neg]
      rw [h]
      exact fun h2 => hne h2.symm
    · simp only [insertA, h, if_false]
      simp only [lookupA, ih]

theorem lookupA_removeA_ne {K V : Type} [DecidableEq K]
    (m : List (K × V)) (key k : K) (hne : k ≠ key) :
    lookupA (removeA m key) k = lookupA m k := by
  induction m with
  | nil => simp [removeA]
  | cons kv rest ih =>
    by_cases h : kv.1 = key
    · simp only [removeA, h, if_true]
      simp only [lookupA]
      rw [if_neg]
      rw [h]
      exact fun h2 => hne h2.symm
    · simp only [removeA, h, if_false]
      simp only [lookupA, ih]

/-- Well-formed association list: no duplicate keys. -/
def WfMap {K V : Type} (m : List (K × V)) : Prop :=
  (m.map Prod.fst).Nodup

theorem wfMap_nil {K V : Type} : WfMap ([] : List (K × V)) := by
  simp [WfMap]

theorem lookupA_eq_none_of_not_mem {K V : Type} [DecidableEq K]
    (m : List (K × V)) (key : K) (h : key ∉ m.map Prod.fst) :
    lookupA m key = none := by
  induction m with
  | nil => rfl
  | cons kv rest ih =>
    simp only [List.map_cons, List.mem_cons, not_or] at h
    simp only [lookupA]
    rw [if_neg (fun he => h.1 he.symm)]
    exact ih h.2

theorem lookupA_removeA_self {K V : Type} [DecidableEq K]
    (m : List (K × V)) (key : K) (hwf : WfMap m) :
    lookupA (removeA m key) key = none := by
  induction m with
  | nil => simp [removeA, lookupA]
  | cons kv rest ih =>
    simp only [WfMap, List.map_cons, List.nodup_cons] at hwf
    obtain ⟨hnotin, hrest⟩ := hwf
    by_cases h : kv.1 = key
    · simp only [removeA, h, if_true]
      apply lookupA_eq_none_of_not_mem
      rw [← h]
      exact hnotin
    · simp only [removeA, h, if_false]
      simp only [lookupA]
      rw [if_neg h]
      exact ih hrest

theorem removeA_sublist {K V : Type} [DecidableEq K]
    (m : List (K × V)) (key : K) : List.Sublist (removeA m key) m := by
  induction m with
  | nil => simp [removeA]
  | cons kv rest ih =>
    by_cases h : kv.1 = key
    · simp only [removeA, h, if_true]
      exact List.sublist_cons_self kv rest
    · simp only [removeA, h, if_false]
      exact ih.cons₂ kv

theorem wfMap_removeA {K V : Type} [DecidableEq K]
    (m : List (K × V)) (key : K) (hwf : WfMap m) :
    WfMap (removeA m key) :=
  hwf.sublist ((removeA_sublist m key).map Prod.fst)

theorem insertA_keys_subset {K V : Type} [DecidableEq K]
    (m : List (K × V)) (key : K) (v : V) :
    ∀ x, x ∈ (insertA m key v).map Prod.fst →
      x = key ∨ x ∈ m.map Prod.fst := by
  intro x hx
  induction m with
  | nil => simpa [insertA] using hx
  | cons kv rest ih =>
    by_cases h : kv.1 = key
    · simp only [insertA, h, if_true, List.map_cons, List.mem_cons] at hx
      rcases hx with hx | hx
      · exact Or.inl hx
      · right
        rw [List.map_cons, List.mem_cons]
        exact Or.inr hx
    · simp only [insertA, h, if_false, List.map_cons, List.mem_cons] at hx
      rcases hx with hx | hx
      · right
        rw [List.map_cons, List.mem_cons]
        exact Or.inl hx
      · rcases ih hx with hx2 | hx2
        · exact Or.inl hx2
        · right
          rw [List.map_cons, List.mem_cons]
          exact Or.inr hx2

theorem wfMap_insertA {K V : Type} [DecidableEq K]
    (m : List (K × V)) (key : K) (v : V) (hwf : WfMap m) :
    WfMap (insertA m key v) := by
  induction m with
  | nil => simp [insertA, WfMap]
  | cons kv rest ih =>
    simp only [WfMap, List.map_cons, List.nodup_cons] at hwf
    obtain ⟨hnotin, hrest⟩ := hwf
    by_cases h : kv.1 = key
    · simp only [insertA, h, if_true]
      simp only [WfMap, List.map_cons, List.nodup_cons]
      rw [← h]
      exact ⟨hnotin, hrest⟩
    · simp only [insertA, h, if_false]
      simp only [WfMap, List.map_cons, List.nodup_cons]
      refine ⟨?_, ih hrest⟩
      intro hmem
      rcases insertA_keys_subset rest key v kv.1 hmem with hx | hx
      · exact h hx
      · exact hnotin hx

/-- Number of contexts of flow k in a list of contexts. -/
def keyCount {T K : Type} [DecidableEq K] (k : K)
    (l : List (PacketContext T K)) : Nat :=
  l.countP (fun c => decide (c.key = k))

theorem keyCount_append {T K : Type} [DecidableEq K] (k : K)
    (l1 l2 : List (PacketContext T K)) :
    keyCount k (l1 ++ l2) = keyCount k l1 + keyCount k l2 :=
  List.countP_append _ _ _

theorem keyCount_cons {T K : Type} [DecidableEq K] (k : K)
    (c : PacketContext T K) (l : List (PacketContext T K)) :
    keyCount k (c :: l) = keyCount k l + (if c.key = k then 1 else 0) := by
  simp [keyCount, List.countP_cons]

theorem keyCount_nil {T K : Type} [DecidableEq K] (k : K) :
    keyCount k ([] : List (PacketContext T K)) = 0 := rfl

/-- An Ok enqueue appends the context at the tail and leaves the expiry
buffer alone. -/
theorem fifo_enqueue_ok_shape {T K : Type} (q : FifoQdisc T K)
    (ctx : PacketContext T K) (h : (q.enqueue ctx).2 = none) :
    (q.enqueue ctx).1.queue = q.queue ++ [ctx] ∧
    (q.enqueue ctx).1.pending_expired = q.pending_expired := by
  unfold FifoQdisc.enqueue at h ⊢
  by_cases hl : q.hard_limit ≤ q.queue.length
  · cases hq : q.queue with
    | nil =>
      rw [hq] at hl
      simp only [List.length_nil] at hl
      simp [hl, hq]
    | cons a rest =>
      rw [hq] at hl
      simp only [List.length_cons] at hl
      simp only [hq, List.length_cons, hl, if_true] at h
      cases h
  · simp [hl]

theorem fifo_count_peek {T K : Type} [DecidableEq K] (q : FifoQdisc T K)
    (now : Nat) (k : K) :
    keyCount k ((q.peek now).1.queue ++ (q.peek now).1.pending_expired)
      = keyCount k (q.queue ++ q.pending_expired) := by
  have h1 : (q.peek now).1.queue
      = q.queue.dropWhile (isStale q.max_latency now) := by
    show (FifoQdisc.sweep q.max_latency now q.queue).1 = _
    rw [sweep_eq_span]
  have h2 : (q.peek now).1.pending_expired
      = q.pending_expired ++ q.queue.takeWhile (isStale q.max_latency now) := by
    show q.pending_expired ++ (FifoQdisc.sweep q.max_latency now q.queue).2 = _
    rw [sweep_eq_span]
  rw [h1, h2]
  have h3 := congrArg (keyCount k)
    (List.takeWhile_append_dropWhile (p := isStale q.max_latency now) (l := q.queue))
  rw [keyCount_append] at h3
  simp only [keyCount_append]
  omega

theorem fifo_count_dequeue_some {T K : Type} [DecidableEq K]
    (q : FifoQdisc T K) (now : Nat) (c : PacketContext T K) (k : K)
    (h : (q.dequeue now).2 = some c) :
    keyCount k ((q.dequeue now).1.queue ++ (q.dequeue now).1.pending_expired)
        + (if c.key = k then 1 else 0)
      = keyCount k (q.queue ++ q.pending_expired) := by
  have hpk := fifo_count_peek q now k
  unfold FifoQdisc.dequeue at h ⊢
  cases hp : (q.peek now).2 with
  | none => simp [hp] at h
  | some d =>
    simp only [hp] at h ⊢
    have hhd : (q.peek now).1.queue.head? = some c := by
      rw [← FifoQdisc.peek_snd_eq] at h ⊢
      exact h
    cases hq : (q.peek now).1.queue with
    | nil => rw [hq] at hhd; cases hhd
    | cons a rest =>
      rw [hq] at hhd
      simp only [List.head?] at hhd
      cases hhd
      rw [hq] at hpk
      rw [keyCount_append, keyCount_cons] at hpk
      simp only [hq, List.tail_cons]
      rw [keyCount_append]
      omega

theorem fifo_count_dequeue_none {T K : Type} [DecidableEq K]
    (q : FifoQdisc T K) (now : Nat) (k : K)
    (h : (q.dequeue now).2 = none) :
    keyCount k ((q.dequeue now).1.queue ++ (q.dequeue now).1.pending_expired)
      = keyCount k (q.queue ++ q.pending_expired) := by
  have hpk := fifo_count_peek q now k
  unfold FifoQdisc.dequeue at h ⊢
  cases hp : (q.peek now).2 with
  | none => simp only [hp]; exact hpk
  | some d =>
    simp [hp] at h
    rw [FifoQdisc.peek_snd_eq] at hp
    rw [h] at hp
    simp at hp

theorem fifo_count_collect {T K : Type} [DecidableEq K]
    (q : FifoQdisc T K) (k : K) :
    keyCount k ((q.collect_dropped).1.queue
        ++ (q.collect_dropped).1.pending_expired)
        + keyCount k (q.collect_dropped).2
      = keyCount k (q.queue ++ q.pending_expired) := by
  unfold FifoQdisc.collect_dropped
  simp only [keyCount_append]
  simp [keyCount_nil]

/-- The counter map m matches the intended per-flow tally f: every stored
counter is the tally and is positive, and absent keys have tally zero. -/
def InvMap {K : Type} [DecidableEq K] (m : List (K × Nat)) (f : K → Nat) :
    Prop :=
  ∀ k, match lookupA m k with
       | some c => c = f k ∧ c ≠ 0
       | none => f k = 0

/-- In-flight tally of flow k inside both children of a SparseQdisc,
counting queued and expired-but-uncollected contexts. -/
def occS {T K : Type} [DecidableEq K] (k : K) (s : SparseQdisc T K) : Nat :=
  keyCount k (s.sparse_qdisc.queue ++ s.sparse_qdisc.pending_expired)
    + keyCount k (s.bulk_qdisc.queue ++ s.bulk_qdisc.pending_expired)

/-- The full counter invariant of a SparseQdisc. -/
def sparseInv {T K : Type} [DecidableEq K] (s : SparseQdisc T K) : Prop :=
  WfMap s.flow_counts ∧ InvMap s.flow_counts (fun k => occS k s)

theorem decKey_invMap {K : Type} [DecidableEq K] (m : List (K × Nat))
    (g : K → Nat) (key : K) (hwf : WfMap m)
    (h : InvMap m (fun k => (if key = k then 1 else 0) + g k)) :
    WfMap (decKey m key) ∧ InvMap (decKey m key) g := by
  have hk := h key
  cases hl : lookupA m key with
  | none =>
    rw [hl] at hk
    simp at hk
  | some c =>
    rw [hl] at hk
    obtain ⟨hc, hc0⟩ := hk
    simp at hc
    unfold decKey
    rw [hl]
    have hpos : 0 < c := by omega
    simp only [hpos, if_true]
    by_cases hz : c - 1 = 0
    · rw [if_pos hz]
      refine ⟨wfMap_removeA _ _ hwf, ?_⟩
      intro k
      by_cases hkk : k = key
      · subst hkk
        rw [lookupA_removeA_self _ _ hwf]
        show g k = 0
        omega
      · rw [lookupA_removeA_ne _ _ _ hkk]
        have hh := h k
        have hif : (if key = k then 1 else 0) = 0 := by
          rw [if_neg (fun he => hkk he.symm)]
        cases hl2 : lookupA m k with
        | none =>
          rw [hl2] at hh
          simp only [hif] at hh
          simpa using hh
        | some c2 =>
          rw [hl2] at hh
          simp only [hif] at hh
          simpa using hh
    · rw [if_neg hz]
      refine ⟨wfMap_insertA _ _ _ hwf, ?_⟩
      intro k
      by_cases hkk : k = key
      · subst hkk
        rw [lookupA_insertA_self]
        show c - 1 = g k ∧ c - 1 ≠ 0
        refine ⟨?_, hz⟩
        omega
      · rw [lookupA_insertA_ne _ _ _ _ hkk]
        have hh := h k
        have hif : (if key = k then 1 else 0) = 0 := by
          rw [if_neg (fun he => hkk he.symm)]
        cases hl2 : lookupA m k with
        | none =>
          rw [hl2] at hh
          simp only [hif] at hh
          simpa using hh
        | some c2 =>
          rw [hl2] at hh
          simp only [hif] at hh
          simpa using hh

theorem invMap_congr {K : Type} [DecidableEq K] (m : List (K × Nat))
    (f f' : K → Nat) (he : ∀ k, f k = f' k) (h : InvMap m f) : InvMap m f' := by
  intro k
  have hk := h k
  cases hl : lookupA m k with
  | none => rw [hl] at hk; rw [← he k]; exact hk
  | some c => rw [hl] at hk; rw [← he k]; exact hk

theorem foldl_decKey_invMap {T K : Type} [DecidableEq K] :
    ∀ (ds : List (PacketContext T K)) (m : List (K × Nat)) (g : K → Nat),
      WfMap m → InvMap m (fun k => keyCount k ds + g k) →
      WfMap (ds.foldl (fun m c => decKey m c.key) m)
        ∧ InvMap (ds.foldl (fun m c => decKey m c.key) m) g := by
  intro ds
  induction ds with
  | nil =>
    intro m g hwf hin
    refine ⟨hwf, invMap_congr m _ g (fun k => ?_) hin⟩
    simp [keyCount_nil]
  | cons d rest ih =>
    intro m g hwf hin
    have hin2 : InvMap m
        (fun k => (if d.key = k then 1 else 0) + (keyCount k rest + g k)) := by
      refine invMap_congr m _ _ (fun k => ?_) hin
      rw [keyCount_cons]
      omega
    have hstep := decKey_invMap m (fun k => keyCount k rest + g k) d.key hwf hin2
    simpa using ih (decKey m d.key) g hstep.1 hstep.2

theorem sparse_enqueue_ok_inv {T K : Type} [DecidableEq K]
    (s : SparseQdisc T K) (ctx : PacketContext T K)
    (hinv : sparseInv s) (h : (s.enqueue ctx).2 = none) :
    sparseInv (s.enqueue ctx).1 := by
  obtain ⟨hwf, hin⟩ := hinv
  unfold SparseQdisc.enqueue at h ⊢
  by_cases hcur : (lookupA s.flow_counts ctx.key).getD 0 = 0
  · simp only [hcur, if_true] at h ⊢
    cases hr : (s.sparse_qdisc.enqueue ctx).2 with
    | some rejected => simp [hr] at h
    | none =>
      simp only [hr]
      obtain ⟨hq, hp⟩ := fifo_enqueue_ok_shape s.sparse_qdisc ctx hr
      have hocc0 : occS ctx.key s = 0 := by
        have hk := hin ctx.key
        cases hl : lookupA s.flow_counts ctx.key with
        | none => rw [hl] at hk; exact hk
        | some c =>
          rw [hl] at hk
          rw [hl] at hcur
          simp only [Option.getD] at hcur
          exact absurd hcur hk.2
      have hocc : ∀ k, occS k
          ({ sparse_qdisc := (s.sparse_qdisc.enqueue ctx).1,
             bulk_qdisc := s.bulk_qdisc,
             flow_counts := insertA s.flow_counts ctx.key 1 } : SparseQdisc T K)
          = occS k s + (if ctx.key = k then 1 else 0) := by
        intro k
        unfold occS
        simp only [hq, hp, keyCount_append, keyCount_cons, keyCount_nil]
        split <;> omega
      constructor
      · exact wfMap_insertA _ _ _ hwf
      · intro k
        by_cases hkk : k = ctx.key
        · rw [hkk, lookupA_insertA_self]
          show 1 = occS ctx.key _ ∧ (1 : Nat) ≠ 0
          rw [hocc ctx.key]
          simp
          omega
        · rw [lookupA_insertA_ne _ _ _ _ hkk]
          have hk := hin k
          have hif : (if ctx.key = k then 1 else 0) = 0 :=
            if_neg (fun he => hkk he.symm)
          cases hl : lookupA s.flow_counts k with
          | none =>
            rw [hl] at hk
            show occS k _ = 0
            rw [hocc k, hif]
            simpa using hk
          | some c =>
            rw [hl] at hk
            show c = occS k _ ∧ c ≠ 0
            rw [hocc k, hif]
            exact ⟨by simpa using hk.1, hk.2⟩
  · simp only [hcur, if_false] at h ⊢
    cases hr : (s.bulk_qdisc.enqueue ctx).2 with
    | some rejected => simp [hr] at h
    | none =>
      simp only [hr]
      obtain ⟨hq, hp⟩ := fifo_enqueue_ok_shape s.bulk_qdisc ctx hr
      obtain ⟨c0, hl0⟩ : ∃ c0, lookupA s.flow_counts ctx.key = some c0 := by
        cases hl : lookupA s.flow_counts ctx.key with
        | none => rw [hl] at hcur; simp [Option.getD] at hcur
        | some c0 => exact ⟨c0, rfl⟩
      simp only [hl0]
      have hk0 := hin ctx.key
      rw [hl0] at hk0
      have hc0eq : c0 = occS ctx.key s := by simpa using hk0.1
      have hocc : ∀ k, occS k
          ({ sparse_qdisc := s.sparse_qdisc,
             bulk_qdisc := (s.bulk_qdisc.enqueue ctx).1,
             flow_counts := insertA s.flow_counts ctx.key (c0 + 1) }
            : SparseQdisc T K)
          = occS k s + (if ctx.key = k then 1 else 0) := by
        intro k
        unfold occS
        simp only [hq, hp, keyCount_append, keyCount_cons, keyCount_nil]
        split <;> omega
      constructor
      · exact wfMap_insertA _ _ _ hwf
      · intro k
        by_cases hkk : k = ctx.key
        · rw [hkk, lookupA_insertA_self]
          show c0 + 1 = occS ctx.key _ ∧ c0 + 1 ≠ 0
          rw [hocc ctx.key]
          simp
          omega
        · rw [lookupA_insertA_ne _ _ _ _ hkk]
          have hk := hin k
          have hif : (if ctx.key = k then 1 else 0) = 0 :=
            if_neg (fun he => hkk he.symm)
          cases hl : lookupA s.flow_counts k with
          | none =>
            rw [hl] at hk
            show occS k _ = 0
            rw [hocc k, hif]
            simpa using hk
          | some c =>
            rw [hl] at hk
            show c = occS k _ ∧ c ≠ 0
            rw [hocc k, hif]
            exact ⟨by simpa using hk.1, hk.2⟩

theorem sparse_dequeue_inv {T K : Type} [DecidableEq K]
    (s : SparseQdisc T K) (now : Nat) (hinv : sparseInv s) :
    sparseInv (s.dequeue now).1 := by
  obtain ⟨hwf, hin⟩ := hinv
  unfold SparseQdisc.dequeue
  cases hrs : (s.sparse_qdisc.dequeue now).2 with
  | some ctx =>
    simp only [hrs]
    have hocc : ∀ k, occS k s
        = (if ctx.key = k then 1 else 0)
          + occS k ({ sparse_qdisc := (s.sparse_qdisc.dequeue now).1,
                      bulk_qdisc := s.bulk_qdisc,
                      flow_counts := decKey s.flow_counts ctx.key }
                    : SparseQdisc T K) := by
      intro k
      have h1 := fifo_count_dequeue_some s.sparse_qdisc now ctx k hrs
      unfold occS
      dsimp only
      omega
    have hd := decKey_invMap s.flow_counts
      (fun k => occS k ({ sparse_qdisc := (s.sparse_qdisc.dequeue now).1,
                          bulk_qdisc := s.bulk_qdisc,
                          flow_counts := decKey s.flow_counts ctx.key }
                        : SparseQdisc T K))
      ctx.key hwf (invMap_congr _ _ _ hocc hin)
    exact ⟨hd.1, hd.2⟩
  | none =>
    simp only [hrs]
    cases hrb : (s.bulk_qdisc.dequeue now).2 with
    | some ctx =>
      simp only [hrb]
      have hocc : ∀ k, occS k s
          = (if ctx.key = k then 1 else 0)
            + occS k ({ sparse_qdisc := (s.sparse_qdisc.dequeue now).1,
                        bulk_qdisc := (s.bulk_qdisc.dequeue now).1,
                        flow_counts := decKey s.flow_counts ctx.key }
                      : SparseQdisc T K) := by
        intro k
        have h1 := fifo_count_dequeue_none s.sparse_qdisc now k hrs
        have h2 := fifo_count_dequeue_some s.bulk_qdisc now ctx k hrb
        unfold occS
        dsimp only
        omega
      have hd := decKey_invMap s.flow_counts
        (fun k => occS k ({ sparse_qdisc := (s.sparse_qdisc.dequeue now).1,
                            bulk_qdisc := (s.bulk_qdisc.dequeue now).1,
                            flow_counts := decKey s.flow_counts ctx.key }
                          : SparseQdisc T K))
        ctx.key hwf (invMap_congr _ _ _ hocc hin)
      exact ⟨hd.1, hd.2⟩
    | none =>
      simp only [hrb]
      refine ⟨hwf, invMap_congr _ _ _ (fun k => ?_) hin⟩
      have h1 := fifo_count_dequeue_none s.sparse_qdisc now k hrs
      have h2 := fifo_count_dequeue_none s.bulk_qdisc now k hrb
      unfold occS
      dsimp only
      omega

theorem sparse_peek_inv {T K : Type} [DecidableEq K]
    (s : SparseQdisc T K) (now : Nat) (hinv : sparseInv s) :
    sparseInv (s.peek now).1 := by
  obtain ⟨hwf, hin⟩ := hinv
  unfold SparseQdisc.peek
  cases hps : (s.sparse_qdisc.peek now).2 with
  | some ctx =>
    simp only [hps]
    refine ⟨hwf, invMap_congr _ _ _ (fun k => ?_) hin⟩
    have h1 := fifo_count_peek s.sparse_qdisc now k
    unfold occS
    dsimp only
    omega
  | none =>
    simp only [hps]
    refine ⟨hwf, invMap_congr _ _ _ (fun k => ?_) hin⟩
    have h1 := fifo_count_peek s.sparse_qdisc now k
    have h2 := fifo_count_peek s.bulk_qdisc now k
    unfold occS
    dsimp only
    omega

theorem sparse_collect_inv {T K : Type} [DecidableEq K]
    (s : SparseQdisc T K) (hinv : sparseInv s) :
    sparseInv (s.collect_dropped).1 := by
  obtain ⟨hwf, hin⟩ := hinv
  unfold SparseQdisc.collect_dropped
  dsimp only
  have hin2 : InvMap s.flow_counts
      (fun k => keyCount k ((s.sparse_qdisc.collect_dropped).2
          ++ (s.bulk_qdisc.collect_dropped).2)
        + occS k ({ sparse_qdisc := (s.sparse_qdisc.collect_dropped).1,
                    bulk_qdisc := (s.bulk_qdisc.collect_dropped).1,
                    flow_counts := ((s.sparse_qdisc.collect_dropped).2
                        ++ (s.bulk_qdisc.collect_dropped).2).foldl
                      (fun m c => decKey m c.key) s.flow_counts }
                  : SparseQdisc T K)) := by
    refine invMap_congr _ _ _ (fun k => ?_) hin
    have h1 := fifo_count_collect s.sparse_qdisc k
    have h2 := fifo_count_collect s.bulk_qdisc k
    rw [keyCount_append]
    unfold occS
    dsimp only
    omega
  have hf := foldl_decKey_invMap
    ((s.sparse_qdisc.collect_dropped).2 ++ (s.bulk_qdisc.collect_dropped).2)
    s.flow_counts _ hwf hin2
  exact ⟨hf.1, hf.2⟩

-- Operation traces over a SparseQdisc.

/-- One externally visible operation on a SparseQdisc. -/
inductive SparseOp (T K : Type) where
  | enq (ctx : PacketContext T K)
  | deq (now : Nat)
  | peekOp (now : Nat)
  | collect
  deriving DecidableEq, Repr

/-- One trace step: the Bool records whether every enqueue so far was
accepted (no overflow eviction happened in a child). -/
def sparseStep {T K : Type} [DecidableEq K] (p : SparseQdisc T K × Bool)
    (op : SparseOp T K) : SparseQdisc T K × Bool :=
  match op with
  | .enq ctx =>
    let r := p.1.enqueue ctx
    (r.1, p.2 && r.2.isNone)
  | .deq now => ((p.1.dequeue now).1, p.2)
  | .peekOp now => ((p.1.peek now).1, p.2)
  | .collect => ((p.1.collect_dropped).1, p.2)

/-- Run a trace from a SparseQdisc with the all-enqueues-accepted flag. -/
def sparseRun {T K : Type} [DecidableEq K] (s0 : SparseQdisc T K)
    (ops : List (SparseOp T K)) : SparseQdisc T K × Bool :=
  ops.foldl sparseStep (s0, true)

theorem sparseStep_flag {T K : Type} [DecidableEq K]
    (p : SparseQdisc T K × Bool) (op : SparseOp T K)
    (h : (sparseStep p op).2 = true) : p.2 = true := by
  cases op with
  | enq ctx =>
    simp only [sparseStep, Bool.and_eq_true] at h
    exact h.1
  | deq now => exact h
  | peekOp now => exact h
  | collect => exact h

theorem sparseFold_flag {T K : Type} [DecidableEq K] :
    ∀ (ops : List (SparseOp T K)) (p : SparseQdisc T K × Bool),
      (ops.foldl sparseStep p).2 = true → p.2 = true := by
  intro ops
  induction ops with
  | nil => intro p h; exact h
  | cons op rest ih =>
    intro p h
    exact sparseStep_flag p op (ih (sparseStep p op) h)

theorem sparseFold_inv {T K : Type} [DecidableEq K] :
    ∀ (ops : List (SparseOp T K)) (p : SparseQdisc T K × Bool),
      sparseInv p.1 → (ops.foldl sparseStep p).2 = true →
      sparseInv (ops.foldl sparseStep p).1 := by
  intro ops
  induction ops with
  | nil => intro p hp _; exact hp
  | cons op rest ih =>
    intro p hp hflag
    apply ih (sparseStep p op) ?_ hflag
    have hstep : (sparseStep p op).2 = true := sparseFold_flag rest _ hflag
    cases op with
    | enq ctx =>
      simp only [sparseStep, Bool.and_eq_true, Option.isNone_iff_eq_none] at hstep
      exact sparse_enqueue_ok_inv p.1 ctx hp hstep.2
    | deq now => exact sparse_dequeue_inv p.1 now hp
    | peekOp now => exact sparse_peek_inv p.1 now hp
    | collect => exact sparse_collect_inv p.1 hp

/-- C8 (amended): a packet whose flow has in-flight count zero goes to the
sparse child and a positive count routes to the bulk child; the counter is
incremented only on a successful child enqueue, and an enqueue that
propagates a child Err leaves every counter unchanged; over any trace from
an empty SparseQdisc in which no child enqueue rejected (no overflow
eviction), every stored counter equals the number of that flow's contexts
resident in the two children and is erased exactly when it reaches zero,
so a counter returns to zero iff all of that flow's in-flight contexts have
exited. The unmodified claim fails when a child head-drops: the evicted
context leaves without a decrement. -/
theorem C8_sparse_counter {T K : Type} [DecidableEq K] :
    (∀ (s : SparseQdisc T K) (ctx : PacketContext T K),
      (lookupA s.flow_counts ctx.key).getD 0 = 0 →
        (s.enqueue ctx).1.bulk_qdisc = s.bulk_qdisc
        ∧ (s.enqueue ctx).1.sparse_qdisc = (s.sparse_qdisc.enqueue ctx).1
        ∧ (s.enqueue ctx).2 = (s.sparse_qdisc.enqueue ctx).2)
  ∧ (∀ (s : SparseQdisc T K) (ctx : PacketContext T K),
      (lookupA s.flow_counts ctx.key).getD 0 ≠ 0 →
        (s.enqueue ctx).1.sparse_qdisc = s.sparse_qdisc
        ∧ (s.enqueue ctx).1.bulk_qdisc = (s.bulk_qdisc.enqueue ctx).1
        ∧ (s.enqueue ctx).2 = (s.bulk_qdisc.enqueue ctx).2)
  ∧ (∀ (s : SparseQdisc T K) (ctx r : PacketContext T K),
      (s.enqueue ctx).2 = some r →
        (s.enqueue ctx).1.flow_counts = s.flow_counts)
  ∧ (∀ (ml1 hl1 ml2 hl2 : Nat) (ops : List (SparseOp T K)),
      (sparseRun (SparseQdisc.new (FifoQdisc.new T K ml1 hl1)
          (FifoQdisc.new T K ml2 hl2)) ops).2 = true →
      sparseInv (sparseRun (SparseQdisc.new (FifoQdisc.new T K ml1 hl1)
          (FifoQdisc.new T K ml2 hl2)) ops).1) := by
  refine ⟨?_, ?_, ?_, ?_⟩
  · intro s ctx hcur
    unfold SparseQdisc.enqueue
    simp only [hcur, if_true]
    cases hr : (s.sparse_qdisc.enqueue ctx).2 with
    | none => simp [hr]
    | some rejected => simp [hr]
  · intro s ctx hcur
    unfold SparseQdisc.enqueue
    simp only [hcur, if_false]
    cases hr : (s.bulk_qdisc.enqueue ctx).2 with
    | none => simp [hr]
    | some rejected => simp [hr]
  · intro s ctx r h
    unfold SparseQdisc.enqueue at h ⊢
    by_cases hcur : (lookupA s.flow_counts ctx.key).getD 0 = 0
    · simp only [hcur, if_true] at h ⊢
      cases hr : (s.sparse_qdisc.enqueue ctx).2 with
      | none => simp [hr] at h
      | some rejected => simp only [hr]
    · simp only [hcur, if_false] at h ⊢
      cases hr : (s.bulk_qdisc.enqueue ctx).2 with
      | none => simp [hr] at h
      | some rejected => simp only [hr]
  · intro ml1 hl1 ml2 hl2 ops hflag
    apply sparseFold_inv ops _ ?_ hflag
    constructor
    · exact wfMap_nil
    · intro k
      show occS k _ = 0
      unfold occS
      simp [FifoQdisc.new, SparseQdisc.new, keyCount_nil]

/-- Witness for C8: the counter invariant evaluated after a concrete trace
of three accepted enqueues, one dequeue and one collect on flow 3. -/
theorem C8_sparse_counter_witness :
    sparseInv (sparseRun (SparseQdisc.new (FifoQdisc.new Nat Nat 1000 8)
        (FifoQdisc.new Nat Nat 1000 8))
      [SparseOp.enq (mkCtx 30 3 400 400 0 0),
       SparseOp.enq (mkCtx 31 3 400 400 0 0),
       SparseOp.enq (mkCtx 32 4 400 400 0 0),
       SparseOp.deq 0, SparseOp.collect]).1 :=
  C8_sparse_counter.2.2.2 1000 8 1000 8
    [SparseOp.enq (mkCtx 30 3 400 400 0 0),
     SparseOp.enq (mkCtx 31 3 400 400 0 0),
     SparseOp.enq (mkCtx 32 4 400 400 0 0),
     SparseOp.deq 0, SparseOp.collect] (by decide)

-- ==========================================
-- DualFairQdisc (dual_fair_qdisc.rs)
-- ==========================================

/-- Two-lane byte-fair DRR wrapper, mirroring dual_fair_qdisc.rs, with the
boxed child qdiscs instantiated with the FifoQdisc model. -/
structure DualFairQdisc (T K : Type) where
  q_a : FifoQdisc T K
  q_b : FifoQdisc T K
  classifier : PacketContext T K → Bool
  deficit_a : Int
  deficit_b : Int
  quantum : Int
  turn_a : Bool

namespace DualFairQdisc

/-- The payday loop of prepare_next (dual_fair_qdisc.rs lines 48-70) with
explicit fuel; none models running out of fuel before the Rust loop exits,
and some s models the loop exiting ready in state s. -/
def prepareLoop {T K : Type} :
    Nat → DualFairQdisc T K → Nat → Option (DualFairQdisc T K)
  | 0, _, _ => none
  | fuel + 1, s, now =>
    if s.turn_a then
      let p := s.q_a.peek now
      let s1 := { s with q_a := p.1 }
      match p.2 with
      | some ctx =>
        if (ctx.cost : Int) ≤ s1.deficit_a then some s1
        else
          prepareLoop fuel
            { s1 with
              deficit_a := s1.deficit_a + s1.quantum,
              turn_a := false } now
      | none =>
        prepareLoop fuel { s1 with deficit_a := 0, turn_a := false } now
    else
      let p := s.q_b.peek now
      let s1 := { s with q_b := p.1 }
      match p.2 with
      | some ctx =>
        if (ctx.cost : Int) ≤ s1.deficit_b then some s1
        else
          prepareLoop fuel
            { s1 with
              deficit_b := s1.deficit_b + s1.quantum,
              turn_a := true } now
      | none =>
        prepareLoop fuel { s1 with deficit_b := 0, turn_a := true } now

/-- prepare_next, mirroring dual_fair_qdisc.rs lines 39-71: if both
children peek empty (with short-circuit evaluation) both deficits are
reset and the state machine reports not ready; otherwise the payday loop
runs. The pair's second component is some b when the Rust call returns b,
none when the fuel ran out. -/
def prepare_next {T K : Type} (fuel : Nat) (s : DualFairQdisc T K)
    (now : Nat) : DualFairQdisc T K × Option Bool :=
  let pa := s.q_a.peek now
  let s1 := { s with q_a := pa.1 }
  match pa.2 with
  | none =>
    let pb := s1.q_b.peek now
    let s2 := { s1 with q_b := pb.1 }
    match pb.2 with
    | none => ({ s2 with deficit_a := 0, deficit_b := 0 }, some false)
    | some _ =>
      match prepareLoop fuel s2 now with
      | some s3 => (s3, some true)
      | none => (s2, none)
  | some _ =>
    match prepareLoop fuel s1 now with
    | some s3 => (s3, some true)
    | none => (s1, none)

/-- Enqueue, mirroring lines 76-82. -/
def enqueue {T K : Type} (s : DualFairQdisc T K) (ctx : PacketContext T K) :
    DualFairQdisc T K × Option (PacketContext T K) :=
  if s.classifier ctx then
    let r := s.q_a.enqueue ctx
    ({ s with q_a := r.1 }, r.2)
  else
    let r := s.q_b.enqueue ctx
    ({ s with q_b := r.1 }, r.2)

/-- Dequeue, mirroring lines 95-110, with explicit fuel for prepare_next. -/
def dequeue {T K : Type} (fuel : Nat) (s : DualFairQdisc T K) (now : Nat) :
    DualFairQdisc T K × Option (PacketContext T K) :=
  match prepare_next fuel s now with
  | (s1, some true) =>
    if s1.turn_a then
      let r := s1.q_a.dequeue now
      match r.2 with
      | some ctx =>
        ({ s1 with
            q_a := r.1,
            deficit_a := s1.deficit_a - (ctx.cost : Int) }, some ctx)
      | none => ({ s1 with q_a := r.1 }, none)
    else
      let r := s1.q_b.dequeue now
      match r.2 with
      | some ctx =>
        ({ s1 with
            q_b := r.1,
            deficit_b := s1.deficit_b - (ctx.cost : Int) }, some ctx)
      | none => ({ s1 with q_b := r.1 }, none)
  | (s1, _) => (s1, none)

/-- Collect, mirroring lines 112-116. -/
def collect_dropped {T K : Type} (s : DualFairQdisc T K) :
    DualFairQdisc T K × List (PacketContext T K) :=
  let ra := s.q_a.collect_dropped
  let rb := s.q_b.collect_dropped
  ({ s with q_a := ra.1, q_b := rb.1 }, ra.2 ++ rb.2)

end DualFairQdisc

namespace DualFairQdisc

theorem prepareLoop_a_ready {T K : Type} (fuel : Nat) (s : DualFairQdisc T K)
    (now : Nat) (ctx : PacketContext T K) (ht : s.turn_a = true)
    (hp : (s.q_a.peek now).2 = some ctx)
    (hr : (ctx.cost : Int) ≤ s.deficit_a) :
    prepareLoop (fuel + 1) s now
      = some { s with q_a := (s.q_a.peek now).1 } := by
  unfold prepareLoop
  simp only [ht, if_true, hp]
  rw [if_pos hr]

theorem prepareLoop_a_credit {T K : Type} (fuel : Nat) (s : DualFairQdisc T K)
    (now : Nat) (ctx : PacketContext T K) (ht : s.turn_a = true)
    (hp : (s.q_a.peek now).2 = some ctx)
    (hr : ¬ (ctx.cost : Int) ≤ s.deficit_a) :
    prepareLoop (fuel + 1) s now
      = prepareLoop fuel
          { s with
            q_a := (s.q_a.peek now).1,
            deficit_a := s.deficit_a + s.quantum,
            turn_a := false } now := by
  conv_lhs => rw [prepareLoop]
  simp only [ht, if_true, hp]
  rw [if_neg hr]

theorem prepareLoop_a_empty {T K : Type} (fuel : Nat) (s : DualFairQdisc T K)
    (now : Nat) (ht : s.turn_a = true)
    (hp : (s.q_a.peek now).2 = none) :
    prepareLoop (fuel + 1) s now
      = prepareLoop fuel
          { s with
            q_a := (s.q_a.peek now).1,
            deficit_a := 0,
            turn_a := false } now := by
  conv_lhs => rw [prepareLoop]
  simp only [ht, if_true, hp]

theorem prepareLoop_b_ready {T K : Type} (fuel : Nat) (s : DualFairQdisc T K)
    (now : Nat) (ctx : PacketContext T K) (ht : s.turn_a = false)
    (hp : (s.q_b.peek now).2 = some ctx)
    (hr : (ctx.cost : Int) ≤ s.deficit_b) :
    prepareLoop (fuel + 1) s now
      = some { s with q_b := (s.q_b.peek now).1 } := by
  unfold prepareLoop
  simp [ht, hp, hr]

theorem prepareLoop_b_credit {T K : Type} (fuel : Nat) (s : DualFairQdisc T K)
    (now : Nat) (ctx : PacketContext T K) (ht : s.turn_a = false)
    (hp : (s.q_b.peek now).2 = some ctx)
    (hr : ¬ (ctx.cost : Int) ≤ s.deficit_b) :
    prepareLoop (fuel + 1) s now
      = prepareLoop fuel
          { s with
            q_b := (s.q_b.peek now).1,
            deficit_b := s.deficit_b + s.quantum,
            turn_a := true } now := by
  conv_lhs => rw [prepareLoop]
  simp [ht, hp, hr]

theorem prepareLoop_b_empty {T K : Type} (fuel : Nat) (s : DualFairQdisc T K)
    (now : Nat) (ht : s.turn_a = false)
    (hp : (s.q_b.peek now).2 = none) :
    prepareLoop (fuel + 1) s now
      = prepareLoop fuel
          { s with
            q_b := (s.q_b.peek now).1,
            deficit_b := 0,
            turn_a := true } now := by
  conv_lhs => rw [prepareLoop]
  simp [ht, hp]

end DualFairQdisc

namespace DualFairQdisc

/-- Termination of the payday loop anchored on a nonempty A side with the
turn on A: every second iteration credits the A deficit by the quantum, so
the deficit eventually covers the head cost. -/
theorem prepareLoop_term_a {T K : Type} :
    ∀ (m : Nat) (s : DualFairQdisc T K) (now : Nat)
      (ctx : PacketContext T K),
      s.turn_a = true → 1 ≤ s.quantum →
      (s.q_a.peek now).2 = some ctx →
      ((ctx.cost : Int) - s.deficit_a).toNat ≤ m →
      ∃ fuel, (prepareLoop fuel s now).isSome = true := by
  intro m
  induction m using Nat.strong_induction_on with
  | _ m ih =>
    intro s now ctx ht hq hp hm
    by_cases hr : (ctx.cost : Int) ≤ s.deficit_a
    · exact ⟨1, by rw [prepareLoop_a_ready 0 s now ctx ht hp hr]; rfl⟩
    · have hlt : ((ctx.cost : Int) - (s.deficit_a + s.quantum)).toNat < m := by
        omega
      have hpa2 : (((s.q_a.peek now).1).peek now).2 = some ctx := by
        rw [congrArg Prod.snd (FifoQdisc.peek_idem s.q_a now)]
        exact hp
      cases hpb : (s.q_b.peek now).2 with
      | some ctxb =>
        by_cases hrb : (ctxb.cost : Int) ≤ s.deficit_b
        · refine ⟨2, ?_⟩
          rw [prepareLoop_a_credit 1 s now ctx ht hp hr]
          rw [prepareLoop_b_ready 0
            { q_a := (s.q_a.peek now).1, q_b := s.q_b,
              classifier := s.classifier,
              deficit_a := s.deficit_a + s.quantum,
              deficit_b := s.deficit_b, quantum := s.quantum,
              turn_a := false } now ctxb rfl hpb hrb]
          rfl
        · obtain ⟨f, hf⟩ := ih ((ctx.cost : Int)
              - (s.deficit_a + s.quantum)).toNat hlt
            { q_a := (s.q_a.peek now).1,
              q_b := (s.q_b.peek now).1,
              classifier := s.classifier,
              deficit_a := s.deficit_a + s.quantum,
              deficit_b := s.deficit_b + s.quantum,
              quantum := s.quantum,
              turn_a := true }
            now ctx rfl hq hpa2 (Nat.le_refl _)
          refine ⟨f + 2, ?_⟩
          rw [prepareLoop_a_credit (f + 1) s now ctx ht hp hr]
          rw [prepareLoop_b_credit f
            { q_a := (s.q_a.peek now).1, q_b := s.q_b,
              classifier := s.classifier,
              deficit_a := s.deficit_a + s.quantum,
              deficit_b := s.deficit_b, quantum := s.quantum,
              turn_a := false } now ctxb rfl hpb hrb]
          exact hf
      | none =>
        obtain ⟨f, hf⟩ := ih ((ctx.cost : Int)
            - (s.deficit_a + s.quantum)).toNat hlt
          { q_a := (s.q_a.peek now).1,
            q_b := (s.q_b.peek now).1,
            classifier := s.classifier,
            deficit_a := s.deficit_a + s.quantum,
            deficit_b := 0,
            quantum := s.quantum,
            turn_a := true }
          now ctx rfl hq hpa2 (Nat.le_refl _)
        refine ⟨f + 2, ?_⟩
        rw [prepareLoop_a_credit (f + 1) s now ctx ht hp hr]
        rw [prepareLoop_b_empty f
          { q_a := (s.q_a.peek now).1, q_b := s.q_b,
              classifier := s.classifier,
              deficit_a := s.deficit_a + s.quantum,
              deficit_b := s.deficit_b, quantum := s.quantum,
              turn_a := false } now rfl hpb]
        exact hf

end DualFairQdisc

namespace DualFairQdisc

/-- Termination of the payday loop anchored on a nonempty B side when the
A side peeks empty, with the turn on B. -/
theorem prepareLoop_term_bAnchor {T K : Type} :
    ∀ (m : Nat) (s : DualFairQdisc T K) (now : Nat)
      (ctx : PacketContext T K),
      s.turn_a = false → 1 ≤ s.quantum →
      (s.q_a.peek now).2 = none →
      (s.q_b.peek now).2 = some ctx →
      ((ctx.cost : Int) - s.deficit_b).toNat ≤ m →
      ∃ fuel, (prepareLoop fuel s now).isSome = true := by
  intro m
  induction m using Nat.strong_induction_on with
  | _ m ih =>
    intro s now ctx ht hq hpa hpb hm
    by_cases hr : (ctx.cost : Int) ≤ s.deficit_b
    · exact ⟨1, by rw [prepareLoop_b_ready 0 s now ctx ht hpb hr]; rfl⟩
    · have hlt : ((ctx.cost : Int) - (s.deficit_b + s.quantum)).toNat < m := by
        omega
      have hpb2 : (((s.q_b.peek now).1).peek now).2 = some ctx := by
        rw [congrArg Prod.snd (FifoQdisc.peek_idem s.q_b now)]
        exact hpb
      have hpa2 : (((s.q_a.peek now).1).peek now).2 = none := by
        rw [congrArg Prod.snd (FifoQdisc.peek_idem s.q_a now)]
        exact hpa
      obtain ⟨f, hf⟩ := ih ((ctx.cost : Int)
          - (s.deficit_b + s.quantum)).toNat hlt
        { q_a := (s.q_a.peek now).1,
          q_b := (s.q_b.peek now).1,
          classifier := s.classifier,
          deficit_a := 0,
          deficit_b := s.deficit_b + s.quantum,
          quantum := s.quantum,
          turn_a := false }
        now ctx rfl hq hpa2 hpb2 (Nat.le_refl _)
      refine ⟨f + 2, ?_⟩
      rw [prepareLoop_b_credit (f + 1) s now ctx ht hpb hr]
      rw [prepareLoop_a_empty f
        { q_a := s.q_a, q_b := (s.q_b.peek now).1,
          classifier := s.classifier,
          deficit_a := s.deficit_a,
          deficit_b := s.deficit_b + s.quantum,
          quantum := s.quantum,
          turn_a := true } now rfl hpa]
      exact hf

/-- Loop termination from any turn when the A side peeks a context. -/
theorem prepareLoop_term_anchorA {T K : Type} (s : DualFairQdisc T K)
    (now : Nat) (ctx : PacketContext T K) (hq : 1 ≤ s.quantum)
    (hp : (s.q_a.peek now).2 = some ctx) :
    ∃ fuel, (prepareLoop fuel s now).isSome = true := by
  cases ht : s.turn_a with
  | true =>
    exact prepareLoop_term_a ((ctx.cost : Int) - s.deficit_a).toNat s now ctx
      ht hq hp (Nat.le_refl _)
  | false =>
    have hpa2 : (((s.q_a.peek now).1).peek now).2 = some ctx := by
      rw [congrArg Prod.snd (FifoQdisc.peek_idem s.q_a now)]
      exact hp
    cases hpb : (s.q_b.peek now).2 with
    | some ctxb =>
      by_cases hrb : (ctxb.cost : Int) ≤ s.deficit_b
      · exact ⟨1, by rw [prepareLoop_b_ready 0 s now ctxb ht hpb hrb]; rfl⟩
      · obtain ⟨f, hf⟩ := prepareLoop_term_a
          ((ctx.cost : Int) - s.deficit_a).toNat
          { q_a := s.q_a,
            q_b := (s.q_b.peek now).1,
            classifier := s.classifier,
            deficit_a := s.deficit_a,
            deficit_b := s.deficit_b + s.quantum,
            quantum := s.quantum,
            turn_a := true }
          now ctx rfl hq hp (Nat.le_refl _)
        refine ⟨f + 1, ?_⟩
        rw [prepareLoop_b_credit f s now ctxb ht hpb hrb]
        exact hf
    | none =>
      obtain ⟨f, hf⟩ := prepareLoop_term_a
        ((ctx.cost : Int) - s.deficit_a).toNat
        { q_a := s.q_a,
          q_b := (s.q_b.peek now).1,
          classifier := s.classifier,
          deficit_a := s.deficit_a,
          deficit_b := 0,
          quantum := s.quantum,
          turn_a := true }
        now ctx rfl hq hp (Nat.le_refl _)
      refine ⟨f + 1, ?_⟩
      rw [prepareLoop_b_empty f s now ht hpb]
      exact hf

/-- Loop termination from any turn when the A side peeks empty and the B
side peeks a context. -/
theorem prepareLoop_term_anchorB {T K : Type} (s : DualFairQdisc T K)
    (now : Nat) (ctx : PacketContext T K) (hq : 1 ≤ s.quantum)
    (hpa : (s.q_a.peek now).2 = none)
    (hpb : (s.q_b.peek now).2 = some ctx) :
    ∃ fuel, (prepareLoop fuel s now).isSome = true := by
  cases ht : s.turn_a with
  | false =>
    exact prepareLoop_term_bAnchor ((ctx.cost : Int) - s.deficit_b).toNat
      s now ctx ht hq hpa hpb (Nat.le_refl _)
  | true =>
    have hpa2 : (((s.q_a.peek now).1).peek now).2 = none := by
      rw [congrArg Prod.snd (FifoQdisc.peek_idem s.q_a now)]
      exact hpa
    obtain ⟨f, hf⟩ := prepareLoop_term_bAnchor
      ((ctx.cost : Int) - s.deficit_b).toNat
      { q_a := (s.q_a.peek now).1,
        q_b := s.q_b,
        classifier := s.classifier,
        deficit_a := 0,
        deficit_b := s.deficit_b,
        quantum := s.quantum,
        turn_a := false }
      now ctx rfl hq hpa2 hpb (Nat.le_refl _)
    refine ⟨f + 1, ?_⟩
    rw [prepareLoop_a_empty f s now ht hpa]
    exact hf

end DualFairQdisc

/-- prepare_next completes for some fuel from every state when the quantum
is at least 1. -/
theorem prepare_next_term {T K : Type} (s : DualFairQdisc T K) (now : Nat)
    (hq : 1 ≤ s.quantum) :
    ∃ fuel, (DualFairQdisc.prepare_next fuel s now).2 ≠ none := by
  cases hpa : (s.q_a.peek now).2 with
  | some ctx =>
    have hpa2 : ((({ s with q_a := (s.q_a.peek now).1 }
        : DualFairQdisc T K)).q_a.peek now).2 = some ctx := by
      show (((s.q_a.peek now).1).peek now).2 = some ctx
      rw [congrArg Prod.snd (FifoQdisc.peek_idem s.q_a now)]
      exact hpa
    obtain ⟨f, hf⟩ := DualFairQdisc.prepareLoop_term_anchorA
      ({ s with q_a := (s.q_a.peek now).1 }) now ctx hq hpa2
    refine ⟨f, ?_⟩
    unfold DualFairQdisc.prepare_next
    simp only [hpa]
    obtain ⟨s3, hs3⟩ := Option.isSome_iff_exists.mp hf
    rw [hs3]
    simp
  | none =>
    cases hpb : (s.q_b.peek now).2 with
    | none =>
      refine ⟨0, ?_⟩
      unfold DualFairQdisc.prepare_next
      simp only [hpa, hpb]
      simp
    | some ctx =>
      have hpa2 : ((({ s with
          q_a := (s.q_a.peek now).1,
          q_b := (s.q_b.peek now).1 } : DualFairQdisc T K)).q_a.peek now).2
          = none := by
        show (((s.q_a.peek now).1).peek now).2 = none
        rw [congrArg Prod.snd (FifoQdisc.peek_idem s.q_a now)]
        exact hpa
      have hpb2 : ((({ s with
          q_a := (s.q_a.peek now).1,
          q_b := (s.q_b.peek now).1 } : DualFairQdisc T K)).q_b.peek now).2
          = some ctx := by
        show (((s.q_b.peek now).1).peek now).2 = some ctx
        rw [congrArg Prod.snd (FifoQdisc.peek_idem s.q_b now)]
        exact hpb
      obtain ⟨f, hf⟩ := DualFairQdisc.prepareLoop_term_anchorB
        ({ s with q_a := (s.q_a.peek now).1, q_b := (s.q_b.peek now).1 })
        now ctx hq hpa2 hpb2
      refine ⟨f, ?_⟩
      unfold DualFairQdisc.prepare_next
      simp only [hpa, hpb]
      obtain ⟨s3, hs3⟩ := Option.isSome_iff_exists.mp hf
      rw [hs3]
      simp

/-- Quantum-zero state for the necessity half: one fresh 500-cost context
waits on the A side, both deficits are 0 and the quantum is 0. -/
def dfZero : DualFairQdisc Nat Nat :=
  { q_a := FifoQdisc.mk [mkCtx 40 0 500 500 2 0] 1000 8 [],
    q_b := FifoQdisc.mk [] 1000 8 [],
    classifier := fun c => c.queue_num == 2,
    deficit_a := 0, deficit_b := 0, quantum := 0, turn_a := true }

theorem dfZero_loop_none :
    ∀ n, DualFairQdisc.prepareLoop n
      ({ dfZero with q_a := (dfZero.q_a.peek 0).1 }) 0 = none := by
  intro n
  induction n using Nat.strong_induction_on with
  | _ n ih =>
    match n with
    | 0 => rfl
    | 1 => rfl
    | (n + 2) =>
      have h2 : DualFairQdisc.prepareLoop (n + 2)
          ({ dfZero with q_a := (dfZero.q_a.peek 0).1 }) 0
          = DualFairQdisc.prepareLoop n
            ({ dfZero with q_a := (dfZero.q_a.peek 0).1 }) 0 := rfl
      rw [h2]
      exact ih n (by omega)

/-- C10: with quantum at least 1 the prepare_next scheduling loop (and
hence peek and dequeue) completes from every state for some finite fuel:
each unproductive iteration either zeroes the deficit of an empty side or
credits the current side by the quantum, so an occupied side eventually
covers its head. Positivity is necessary: with quantum 0 and a backlogged
A side the loop exhausts every fuel bound, so prepare_next never
completes. -/
theorem C10_dualfair_termination {T K : Type} :
    (∀ (s : DualFairQdisc T K) (now : Nat), 1 ≤ s.quantum →
      ∃ fuel, (DualFairQdisc.prepare_next fuel s now).2 ≠ none)
  ∧ (dfZero.quantum = 0
      ∧ (dfZero.q_a.peek 0).2 = some (mkCtx 40 0 500 500 2 0)
      ∧ ∀ fuel, (DualFairQdisc.prepare_next fuel dfZero 0).2 = none) := by
  refine ⟨fun s now hq => prepare_next_term s now hq, rfl, by decide, ?_⟩
  intro fuel
  unfold DualFairQdisc.prepare_next
  have hpa : (dfZero.q_a.peek 0).2 = some (mkCtx 40 0 500 500 2 0) := by
    decide
  simp only [hpa]
  rw [dfZero_loop_none fuel]

/-- Witness for C10: existence of completing fuel evaluated at a concrete
quantum-1500 state with one packet on each side. -/
theorem C10_dualfair_termination_witness :
    ∃ fuel, (DualFairQdisc.prepare_next fuel
      ({ q_a := FifoQdisc.mk [mkCtx 41 0 500 500 2 0] 1000 8 [],
         q_b := FifoQdisc.mk [mkCtx 42 1 500 500 3 0] 1000 8 [],
         classifier := fun c => c.queue_num == 2,
         deficit_a := 0, deficit_b := 0, quantum := 1500, turn_a := true }
       : DualFairQdisc Nat Nat) 0).2 ≠ none :=
  C10_dualfair_termination.1
    ({ q_a := FifoQdisc.mk [mkCtx 41 0 500 500 2 0] 1000 8 [],
       q_b := FifoQdisc.mk [mkCtx 42 1 500 500 3 0] 1000 8 [],
       classifier := fun c => c.queue_num == 2,
       deficit_a := 0, deficit_b := 0, quantum := 1500, turn_a := true })
    0 (by decide)
